import Mathlib

/-!
# Markdown-Keeper: shallow embedding and verification

A shallow embedding, in Lean 4, of the core of the Markdown-Keeper
ingestion-and-semantic-retrieval pipeline, covering:

* the deterministic fallback embedding provider
  (`src/markdownkeeper/query/embeddings.py`),
* the markdown parser (`src/markdownkeeper/processor/parser.py`),
* the storage repository: upsert / delete / query-cache / hybrid semantic
  ranking / content budget selection
  (`src/markdownkeeper/storage/repository.py`),
* the persistent event queue (`src/markdownkeeper/watcher/service.py`).

Modelling conventions:

* Python `float` arithmetic is modelled by exact rationals `ℚ` (the scoring
  pipeline performs only `+`, `*`, `/` and comparisons); the single square
  root used by vector normalization is modelled in `ℝ`.
* SQLite tables are modelled as Lean lists of row structures; a plain table
  scan (`SELECT` without `ORDER BY`) yields rows in rowid (insertion) order,
  which the model keeps as list order.
* Strings are compared with Lean's `String` linear order (pointwise on code
  points), matching both Python string comparison and SQLite `TEXT`
  comparison for the values that occur here.
* Machine-independent helpers (`str.strip`, `str.split`, `re` scans,
  SHA-256) are translated to executable Lean functions.
-/

/-! ## Python-style string helpers

All helpers are implemented by structural recursion over the character
list of a string, so that they compute inside the kernel. -/

/-- Maximal runs of characters satisfying `keep`, in order (the accumulator
holds the current run, reversed). -/
def runsAux (keep : Char → Bool) : List Char → List Char → List String
  | acc, [] => if acc.isEmpty then [] else [String.mk acc.reverse]
  | acc, c :: rest =>
    if keep c then runsAux keep (c :: acc) rest
    else if acc.isEmpty then runsAux keep [] rest
    else String.mk acc.reverse :: runsAux keep [] rest

/-- Python `str.split()` (no separator): the maximal non-whitespace runs. -/
def pyWords (s : String) : List String :=
  runsAux (fun c => ¬ c.isWhitespace) [] s.toList

/-- Python `sep.join(ws)`. -/
def joinStr (sep : String) (ws : List String) : String :=
  String.mk (List.intercalate sep.toList (ws.map String.toList))

/-- Python `" ".join(ws)`. -/
def joinSpace (ws : List String) : String := joinStr " " ws

/-- Python `str.strip()` (whitespace from both ends). -/
def pyStrip (s : String) : String :=
  String.mk (((s.toList.dropWhile Char.isWhitespace).reverse.dropWhile
    Char.isWhitespace).reverse)

/-- Does `needle` occur at the head of `hay`? (list version of
`str.startswith`). -/
def leadsList : List Char → List Char → Bool
  | [], _ => true
  | _ :: _, [] => false
  | a :: as, b :: bs => a = b && leadsList as bs

/-- Split on a non-empty separator string, keeping empty pieces
(Python `str.split(sep)`); fuel-indexed, `cs.length + 1` suffices. -/
def splitOnAuxL (sep : List Char) : Nat → List Char → List Char → List String
  | 0, acc, _ => [String.mk acc.reverse]
  | _, acc, [] => [String.mk acc.reverse]
  | fuel + 1, acc, l@(c :: rest) =>
    if leadsList sep l then
      String.mk acc.reverse :: splitOnAuxL sep fuel [] (l.drop sep.length)
    else splitOnAuxL sep fuel (c :: acc) rest

/-- Python `s.split(sep)` for a non-empty separator. -/
def splitOnStr (sep : String) (s : String) : List String :=
  splitOnAuxL sep.toList (s.toList.length + 1) [] s.toList

/-- Python `str.splitlines()` for newline-separated text, modelled as
`split("\n")`; a trailing empty piece, which `splitlines` omits, is
irrelevant for every use below (such lines are blank and get filtered). -/
def pyLines (s : String) : List String := splitOnStr "\n" s

/-- Python `str.lower()`; the repository only lowercases ASCII data, where
`Char.toLower` agrees with Python. -/
def pyLower (s : String) : String := String.mk (s.toList.map Char.toLower)

/-- Python `s.startswith(pre)`. -/
def pyStartsWith (s pre : String) : Bool := leadsList pre.toList s.toList

/-- Lowest index at which `needle` occurs in `hay` (Python `str.find`,
restricted to a suffix by the caller). -/
def findIn : List Char → List Char → Option Nat
  | [], n => if leadsList n [] then some 0 else none
  | h :: t, n =>
    if leadsList n (h :: t) then some 0 else (findIn t n).map (· + 1)

/-- Python `needle in hay` for strings. -/
def strContains (hay needle : String) : Bool :=
  (findIn hay.toList needle.toList).isSome

/-! ## SHA-256 (`hashlib.sha256`), over byte lists -/

/-- 2^32, the word modulus of SHA-256. -/
def m32 : Nat := 4294967296

/-- Rotate a 32-bit word right by `n`. -/
def rotr (n x : Nat) : Nat := (x / 2 ^ n + x % 2 ^ n * 2 ^ (32 - n)) % m32

/-- Shift a 32-bit word right by `n`. -/
def shr (n x : Nat) : Nat := x / 2 ^ n

/-- SHA-256 round constants. -/
def shaK : List Nat :=
  [1116352408, 1899447441, 3049323471, 3921009573, 961987163,
   1508970993, 2453635748, 2870763221, 3624381080, 310598401,
   607225278, 1426881987, 1925078388, 2162078206, 2614888103,
   3248222580, 3835390401, 4022224774, 264347078, 604807628,
   770255983, 1249150122, 1555081692, 1996064986, 2554220882,
   2821834349, 2952996808, 3210313671, 3336571891, 3584528711,
   113926993, 338241895, 666307205, 773529912, 1294757372,
   1396182291, 1695183700, 1986661051, 2177026350, 2456956037,
   2730485921, 2820302411, 3259730800, 3345764771, 3516065817,
   3600352804, 4094571909, 275423344, 430227734, 506948616,
   659060556, 883997877, 958139571, 1322822218, 1537002063,
   1747873779, 1955562222, 2024104815, 2227730452, 2361852424,
   2428436474, 2756734187, 3204031479, 3329325298]

/-- SHA-256 initial hash state. -/
def shaH0 : List Nat :=
  [1779033703, 3144134277, 1013904242, 2773480762,
   1359893119, 2600822924, 528734635, 1541459225]

/-- Big-endian byte decomposition of `v` into `n` bytes. -/
def beBytes (n v : Nat) : List Nat :=
  (List.range n).map fun i => v / 2 ^ (8 * (n - 1 - i)) % 256

/-- SHA-256 message padding: `0x80`, zeros, then the 64-bit big-endian bit
length, to a multiple of 64 bytes. -/
def padMessage (msg : List Nat) : List Nat :=
  let padZeros := (64 - (msg.length + 9) % 64) % 64
  msg ++ [128] ++ List.replicate padZeros 0 ++ beBytes 8 (8 * msg.length)

/-- Big-endian 32-bit word `i` of a 64-byte chunk. -/
def beWord (bs : List Nat) (i : Nat) : Nat :=
  bs.getD (4 * i) 0 * 16777216 + bs.getD (4 * i + 1) 0 * 65536 +
    bs.getD (4 * i + 2) 0 * 256 + bs.getD (4 * i + 3) 0

/-- Extend a 16-word message schedule by `n` further words. -/
def extendSchedule : List Nat → Nat → List Nat
  | w, 0 => w
  | w, n + 1 =>
    let w15 := w.getD (w.length - 15) 0
    let w2 := w.getD (w.length - 2) 0
    let s0 := rotr 7 w15 ^^^ rotr 18 w15 ^^^ shr 3 w15
    let s1 := rotr 17 w2 ^^^ rotr 19 w2 ^^^ shr 10 w2
    extendSchedule
      (w ++ [(w.getD (w.length - 16) 0 + s0 + w.getD (w.length - 7) 0 + s1) % m32]) n

/-- One SHA-256 compression round on the 8-word working state. -/
def shaRound (st : List Nat) (kw : Nat × Nat) : List Nat :=
  match st with
  | [a, b, c, d, e, f, g, h] =>
    let s1 := rotr 6 e ^^^ rotr 11 e ^^^ rotr 25 e
    let ch := (e &&& f) ^^^ ((m32 - 1 - e) &&& g)
    let t1 := (h + s1 + ch + kw.1 + kw.2) % m32
    let s0 := rotr 2 a ^^^ rotr 13 a ^^^ rotr 22 a
    let maj := (a &&& b) ^^^ (a &&& c) ^^^ (b &&& c)
    let t2 := (s0 + maj) % m32
    [(t1 + t2) % m32, a, b, c, (d + t1) % m32, e, f, g]
  | other => other

/-- Compress one 64-byte chunk into the running hash state. -/
def processChunk (hs chunk : List Nat) : List Nat :=
  let ws := extendSchedule ((List.range 16).map (beWord chunk)) 48
  let fin := (shaK.zip ws).foldl shaRound hs
  (hs.zip fin).map fun p => (p.1 + p.2) % m32

/-- Split a byte list into 64-byte chunks (fuel-indexed for structural
recursion; the fuel `l.length` always suffices). -/
def chunksOf64 : Nat → List Nat → List (List Nat)
  | 0, _ => []
  | _, [] => []
  | fuel + 1, l@(_ :: _) => l.take 64 :: chunksOf64 fuel (l.drop 64)

/-- SHA-256 digest (32 bytes) of a byte list. -/
def sha256Bytes (msg : List Nat) : List Nat :=
  let padded := padMessage msg
  (((chunksOf64 padded.length padded).foldl processChunk shaH0).map
    (beBytes 4)).flatten

/-- UTF-8 encoding of one code point. -/
def utf8Char (n : Nat) : List Nat :=
  if n < 0x80 then [n]
  else if n < 0x800 then [0xC0 + n / 64, 0x80 + n % 64]
  else if n < 0x10000 then
    [0xE0 + n / 4096, 0x80 + n / 64 % 64, 0x80 + n % 64]
  else
    [0xF0 + n / 262144, 0x80 + n / 4096 % 64, 0x80 + n / 64 % 64, 0x80 + n % 64]

/-- UTF-8 bytes of a string (Python `str.encode("utf-8")`). -/
def utf8Bytes (s : String) : List Nat :=
  (s.toList.map (fun c => utf8Char c.toNat)).flatten

/-- One lowercase hex digit. -/
def hexDigit (n : Nat) : Char :=
  if n < 10 then Char.ofNat (48 + n) else Char.ofNat (87 + n)

/-- `hashlib.sha256(s.encode("utf-8")).hexdigest()`. -/
def sha256Hex (s : String) : String :=
  String.mk (((sha256Bytes (utf8Bytes s)).map
    (fun b => [hexDigit (b / 16), hexDigit (b % 16)])).flatten)

/-! ## Embedding provider (`query/embeddings.py`) -/

/-- Character class of the token regex `[a-z0-9]+` (applied to lowercased
text). -/
def isTokenChar (c : Char) : Bool := c.isLower || c.isDigit

/-- Maximal `[a-z0-9]+` runs of a character list, in order (the matches of
`re.findall(r"[a-z0-9]+", ·)`).  The accumulator holds the current run,
reversed. -/
def tokenRunsAux : List Char → List Char → List String
  | acc, [] => if acc.isEmpty then [] else [String.mk acc.reverse]
  | acc, c :: rest =>
    if isTokenChar c then tokenRunsAux (c :: acc) rest
    else if acc.isEmpty then tokenRunsAux [] rest
    else String.mk acc.reverse :: tokenRunsAux [] rest

/-- All `[a-z0-9]+` matches of a string. -/
def tokenRuns (s : String) : List String := tokenRunsAux [] s.toList

/-- `_tokenize` (identical in `query/embeddings.py` and
`storage/repository.py`): the set of `[a-z0-9]+` runs of the lowercased
text whose length exceeds 1. -/
def tokenizeSet (text : String) : Finset String :=
  ((tokenRuns (pyLower text)).filter (fun t => 1 < t.length)).toFinset

/-- Bucket index of a token in `_hash_embedding`: the first two digest
bytes of SHA-256 of the token, big-endian, modulo the dimension count. -/
def hashBucket (dims : Nat) (token : String) : Nat :=
  let d := sha256Bytes (utf8Bytes token)
  (d.getD 0 0 * 256 + d.getD 1 0) % dims

/-- The un-normalized bucket-count vector built by `_hash_embedding`'s
increment loop (iteration order over the token set does not matter, as
increments commute). -/
def hashCounts (dims : Nat) (text : String) : List ℕ :=
  (List.range dims).map fun b =>
    ((tokenizeSet text).filter (fun t => hashBucket dims t = b)).card

/-- Squared L2 norm of the count vector, as a rational. -/
def hashNormSq (dims : Nat) (text : String) : ℚ :=
  ((hashCounts dims text).map fun v : ℕ => (v : ℚ) * (v : ℚ)).sum

/-- `_hash_embedding(text, dimensions=64)`: the bucket-count vector,
L2-normalized, or returned as-is (all zeros) when its norm is zero.
Python's `math.sqrt` is modelled by `Real.sqrt`. -/
noncomputable def hashEmbedding (text : String) (dims : Nat := 64) : List ℝ :=
  let counts := hashCounts dims text
  if hashNormSq dims text = 0 then counts.map fun v : ℕ => (v : ℝ)
  else counts.map fun v : ℕ => (v : ℝ) / Real.sqrt ((hashNormSq dims text : ℚ) : ℝ)

/-- Squared L2 norm of a real vector. -/
def l2NormSq (v : List ℝ) : ℝ := (v.map fun x => x * x).sum

/-- `cosine_similarity(left, right)`: dot product, or `0` on mismatched
lengths or an empty operand. -/
def cosineSimilarity (left right : List ℚ) : ℚ :=
  if left.length ≠ right.length ∨ left = [] ∨ right = [] then 0
  else (List.zipWith (· * ·) left right).sum

/-! ## Parser (`processor/parser.py`) -/

/-- `ParsedHeading`. -/
structure ParsedHeading where
  level : Nat
  text : String
  anchor : String
  position : Nat
  deriving DecidableEq, Repr

/-- `ParsedLink`. -/
structure ParsedLink where
  target : String
  isExternal : Bool
  deriving DecidableEq, Repr

/-- `ParsedDocument`.  The `frontmatter` dict is modelled as an association
list in which each key occurs once (assignments replace in place, preserving
Python dict insertion-order semantics for lookups). -/
structure ParsedDocument where
  title : String
  summary : String
  tokenEstimate : Nat
  contentHash : String
  body : String
  headings : List ParsedHeading
  links : List ParsedLink
  frontmatter : List (String × String)
  tags : List String
  category : Option String
  concepts : List String
  deriving DecidableEq, Repr

/-- Python dict assignment `fm[k] = v` on the association-list model. -/
def fmInsert (fm : List (String × String)) (k v : String) : List (String × String) :=
  if fm.any (fun p => p.1 = k) then fm.map (fun p => if p.1 = k then (k, v) else p)
  else fm ++ [(k, v)]

/-- Python `fm.get(k)` on the association-list model. -/
def fmGet (fm : List (String × String)) (k : String) : Option String :=
  (fm.find? (fun p => p.1 = k)).map (fun p => p.2)

/-- Python `value.strip().strip('"')`: whitespace-trim, then strip all
leading and trailing double-quote characters. -/
def stripQuoted (v : String) : String :=
  String.mk (((((pyStrip v).toList).dropWhile (fun c => c = '"')).reverse.dropWhile
    (fun c => c = '"')).reverse)

/-- One `key: value` line of raw frontmatter folded into the dict; lines
without a colon are skipped. -/
def fmLine (fm : List (String × String)) (line : String) : List (String × String) :=
  if strContains line ":" then
    let key := String.mk (line.toList.takeWhile (fun c => c ≠ ':'))
    let value := String.mk ((line.toList.dropWhile (fun c => c ≠ ':')).drop 1)
    fmInsert fm (pyStrip key) (stripQuoted value)
  else fm

/-- `_parse_frontmatter(text)`: frontmatter dict and body.  Recognized only
when the text starts with `---\n` and a closing `\n---\n` is found from
index 4 on; otherwise the whole text is body. -/
def parseFrontmatter (text : String) : List (String × String) × String :=
  let cs := text.toList
  if leadsList "---\n".toList cs then
    match findIn (cs.drop 4) "\n---\n".toList with
    | none => ([], text)
    | some j =>
      let rawFm := String.mk ((cs.drop 4).take j)
      let body := String.mk (cs.drop (4 + j + 5))
      ((pyLines rawFm).foldl fmLine [], body)
  else ([], text)

/-- Replace each maximal whitespace run by a single `-`
(`re.sub(r"\s+", "-", ·)`); the flag records being inside a run. -/
def collapseWsAux : Bool → List Char → List Char
  | _, [] => []
  | inRun, c :: rest =>
    if c.isWhitespace then
      if inRun then collapseWsAux true rest else '-' :: collapseWsAux true rest
    else c :: collapseWsAux false rest

/-- `re.sub(r"\s+", "-", ·)` on a character list. -/
def collapseWsRuns (cs : List Char) : List Char := collapseWsAux false cs

/-- `_slugify(value)`: lowercase, drop characters outside `[a-z0-9\s-]`,
collapse whitespace runs to `-`, strip `-` from both ends. -/
def slugify (value : String) : String :=
  let kept := (pyLower value).toList.filter
    (fun c => c.isLower || c.isDigit || c.isWhitespace || c = '-')
  let collapsed := collapseWsRuns kept
  String.mk (((collapsed.dropWhile (fun c => c = '-')).reverse.dropWhile
    (fun c => c = '-')).reverse)

/-- The per-line match of the MULTILINE heading regex
`^(#{1,6})\s+(.+?)\s*$`: 1–6 leading `#`, at least one whitespace, then
non-blank text (returned trimmed, as `match.group(2).strip()`).  The model
matches line by line; the regex behaves identically except on degenerate
inputs where `\s+` would swallow the line break itself. -/
def headingOfLine (line : String) : Option (Nat × String) :=
  let cs := line.toList
  let hashes := cs.takeWhile (fun c => c = '#')
  let rest := cs.dropWhile (fun c => c = '#')
  if 1 ≤ hashes.length ∧ hashes.length ≤ 6 then
    match rest with
    | c :: _ =>
      if c.isWhitespace ∧ pyStrip (String.mk rest) ≠ "" then
        some (hashes.length, pyStrip (String.mk rest))
      else none
    | [] => none
  else none

/-- All headings of a body, with 1-based positions and slug anchors. -/
def extractHeadings (body : String) : List ParsedHeading :=
  ((pyLines body).filterMap headingOfLine).enum.map
    fun p => ⟨p.2.1, p.2.2, slugify p.2.2, p.1 + 1⟩

/-- Attempt to match `\[[^\]]+\]\(([^)]+)\)` at the current position, after
the initial `[` has been consumed; returns the captured target and the
remaining suffix. -/
def matchLinkAt (rest : List Char) : Option (String × List Char) :=
  let lab := rest.takeWhile (fun c => c ≠ ']')
  if lab.length = 0 then none
  else
    match rest.drop lab.length with
    | ']' :: '(' :: r2 =>
      let tgt := r2.takeWhile (fun c => c ≠ ')')
      if tgt.length = 0 then none
      else
        match r2.drop tgt.length with
        | ')' :: r4 => some (String.mk tgt, r4)
        | _ => none
    | _ => none

/-- Left-to-right non-overlapping scan for link targets (`_LINK_RE.finditer`),
fuel-indexed for structural recursion; the fuel `cs.length` always
suffices because each step consumes at least one character. -/
def scanLinksFuel : Nat → List Char → List String
  | 0, _ => []
  | _, [] => []
  | fuel + 1, c :: rest =>
    if c = '[' then
      match matchLinkAt rest with
      | some (tgt, r) => tgt :: scanLinksFuel fuel r
      | none => scanLinksFuel fuel rest
    else scanLinksFuel fuel rest

/-- All link targets of a body, in order. -/
def extractLinkTargets (body : String) : List String :=
  scanLinksFuel body.toList.length body.toList

/-- `target.startswith("http://") or target.startswith("https://")`. -/
def isExternalTarget (t : String) : Bool :=
  pyStartsWith t "http://" || pyStartsWith t "https://"

/-- All `ParsedLink`s of a body (targets stripped). -/
def extractLinks (body : String) : List ParsedLink :=
  (extractLinkTargets body).map fun t => ⟨pyStrip t, isExternalTarget (pyStrip t)⟩

/-- Character class `[A-Za-z0-9_-]` of the concept-word regex tail. -/
def isWordTailChar (c : Char) : Bool :=
  c.isAlpha || c.isDigit || c = '_' || c = '-'

/-- Left-to-right scan for matches of `[A-Za-z][A-Za-z0-9_-]{2,}`
(`_WORD_RE.findall`): at an ASCII letter, the greedy tail run must have
length at least 2; on failure the scan advances one character. -/
def scanWordsFuel : Nat → List Char → List String
  | 0, _ => []
  | _, [] => []
  | fuel + 1, c :: rest =>
    if c.isAlpha then
      let run := rest.takeWhile isWordTailChar
      if 2 ≤ run.length then
        String.mk (c :: run) :: scanWordsFuel fuel (rest.drop run.length)
      else scanWordsFuel fuel rest
    else scanWordsFuel fuel rest

/-- All `_WORD_RE` matches of a string. -/
def scanWords (s : String) : List String := scanWordsFuel s.toList.length s.toList

/-- `_STOPWORDS`. -/
def stopwords : List String :=
  ["the", "and", "for", "with", "this", "that", "from", "into", "your",
   "guide", "docs", "markdown"]

/-- Stable descending insertion sort: `x` is placed before the first `y`
with `ge x y`; for a total preorder's `≥` this has exactly the semantics of
Python's stable `sorted(..., reverse=True)` / `list.sort` with a key. -/
def stInsert (ge : α → α → Bool) (x : α) : List α → List α
  | [] => [x]
  | y :: ys => if ge x y then x :: y :: ys else y :: stInsert ge x ys

/-- Stable sort placing `x` before `y` whenever `ge x y` (see `stInsert`). -/
def stableSortBy (ge : α → α → Bool) : List α → List α
  | [] => []
  | x :: xs => stInsert ge x (stableSortBy ge xs)

/-- `_extract_concepts(body, headings)`: term frequency of non-stopword
word matches of the body (weight 1) and of heading texts (weight 2),
ranked by `(-count, word)`, top 10.  The Python dict of counts is modelled
by the list of distinct counted words plus a count function; the ranking
key is injective on distinct words, so the sort order is independent of
dict insertion order. -/
def extractConcepts (body : String) (headings : List ParsedHeading) : List String :=
  let bodyWords := ((scanWords body).map pyLower).filter (fun w => w ∉ stopwords)
  let headWords := ((headings.map (fun h => scanWords h.text)).flatten.map pyLower).filter
    (fun w => w ∉ stopwords)
  let keys := (bodyWords ++ headWords).dedup
  let count := fun w => bodyWords.count w + 2 * headWords.count w
  let ranked := stableSortBy
    (fun a b => count b < count a || (count a = count b && a ≤ b)) keys
  ranked.take 10

/-- `_split_list(value)`: split on commas, trim, drop empties; `None` and
`""` give `[]`. -/
def splitList (value : Option String) : List String :=
  match value with
  | none => []
  | some v =>
    if v = "" then []
    else ((splitOnStr "," v).map pyStrip).filter (fun t => t ≠ "")

/-- `parse_markdown(text)`. -/
def parseMarkdown (text : String) : ParsedDocument :=
  let fmBody := parseFrontmatter text
  let frontmatter := fmBody.1
  let body := fmBody.2
  let headings := extractHeadings body
  let links := extractLinks body
  let lines := ((pyLines body).map pyStrip).filter (fun ln => ln ≠ "")
  let fmTitle := (fmGet frontmatter "title").getD ""
  let title :=
    if fmTitle ≠ "" then fmTitle
    else match headings with
      | h :: _ => h.text
      | [] => "Untitled"
  let summary := String.mk ((joinSpace (lines.take 2)).toList.take 280)
  let tokenEstimate := max 1 (pyWords body).length
  let contentHash := sha256Hex text
  let tags := splitList (fmGet frontmatter "tags")
  let category :=
    match fmGet frontmatter "category" with
    | some v => if v = "" then none else some v
    | none => none
  let fmConcepts := splitList (fmGet frontmatter "concepts")
  let concepts := if fmConcepts = [] then extractConcepts body headings else fmConcepts
  ⟨title, summary, tokenEstimate, contentHash, body, headings, links,
    frontmatter, tags, category, concepts⟩

/-- `generate_summary(parsed, max_tokens=150)` from
`metadata/summarizer.py`: the frontmatter summary when present and
non-blank; otherwise title sentence, `Covers:` list of level-2 headings,
and the first non-heading paragraph, truncated to `max_tokens` words. -/
def generateSummary (parsed : ParsedDocument) (maxTokens : Nat := 150) : String :=
  let fmSummary := pyStrip ((fmGet parsed.frontmatter "summary").getD "")
  if fmSummary ≠ "" then fmSummary
  else
    let titleParts :=
      if parsed.title ≠ "" ∧ parsed.title ≠ "Untitled"
      then [parsed.title ++ "."] else []
    let h2s := (parsed.headings.filter (fun h => h.level = 2)).map (fun h => h.text)
    let coverParts :=
      if h2s ≠ [] then ["Covers: " ++ joinStr ", " h2s ++ "."] else []
    let paragraphs := ((splitOnStr "\n\n" parsed.body).map pyStrip).filter (fun p => p ≠ "")
    let firstPara := (paragraphs.filter (fun p => ¬ pyStartsWith p "#")).take 1
    let result := joinSpace (titleParts ++ coverParts ++ firstPara)
    let words := pyWords result
    if maxTokens < words.length then joinSpace (words.take maxTokens) else result

/-! ## Repository (`storage/repository.py`) -/

/-- A row of `documents`.  `content` is the document body; `category` is
nullable. -/
structure DocRow where
  id : Nat
  path : String
  title : String
  summary : String
  category : Option String
  content : String
  contentHash : String
  tokenEstimate : Nat
  updatedAt : String
  processedAt : String
  deriving DecidableEq, Repr

/-- A row of `headings`. -/
structure HeadingRow where
  docId : Nat
  level : Nat
  headingText : String
  anchor : String
  position : Nat
  deriving DecidableEq, Repr

/-- A row of `links` (`source_anchor` is always NULL on insert; `status`
and `checked_at` stay at their defaults here). -/
structure LinkRow where
  docId : Nat
  target : String
  isExternal : Bool
  deriving DecidableEq, Repr

/-- A row of `tags` or `concepts` (an interned vocabulary name). -/
structure NameRow where
  id : Nat
  name : String
  deriving DecidableEq, Repr

/-- A row of `document_chunks`.  The JSON-serialized `embedding` column is
modelled by its deserialized value; `none` is NULL. -/
structure ChunkRow where
  docId : Nat
  chunkIndex : Nat
  headingPath : String
  content : String
  tokenCount : Nat
  embedding : Option (List ℚ)
  deriving DecidableEq, Repr

/-- A row of `embeddings` (one per document). -/
structure EmbeddingRow where
  docId : Nat
  embedding : Option (List ℚ)
  modelName : String
  generatedAt : String
  deriving DecidableEq, Repr

/-- A row of `query_cache`. -/
structure CacheRow where
  id : Nat
  queryHash : String
  queryText : String
  resultIds : List Nat
  createdAt : String
  hitCount : Nat
  lastAccessed : String
  deriving DecidableEq, Repr

/-- The SQLite store: each table as a list of rows in rowid order, plus
rowid counters for the tables whose fresh ids matter to the model. -/
structure Store where
  documents : List DocRow
  headings : List HeadingRow
  links : List LinkRow
  tags : List NameRow
  docTags : List (Nat × Nat)
  concepts : List NameRow
  docConcepts : List (Nat × Nat)
  chunks : List ChunkRow
  embeddings : List EmbeddingRow
  queryCache : List CacheRow
  nextDocId : Nat
  nextNameId : Nat
  nextCacheId : Nat
  deriving DecidableEq, Repr

/-- The empty store of a fresh database. -/
def emptyStore : Store := ⟨[], [], [], [], [], [], [], [], [], [], 1, 1, 1⟩

/-- An embedding provider: `compute_embedding(text)` returns a vector and
the resolved model name.  The source dispatches between an optional
sentence-transformers model and the `token-hash-v1` fallback; the model is
a parameter here, so every theorem below holds for any provider. -/
def Provider : Type := String → List ℚ × String

/-- `_get_or_create_id(connection, table, name)` on a vocabulary table:
returns the id of `name`, inserting it with the next rowid when absent. -/
def getOrCreateId (table : List NameRow) (nextId : Nat) (name : String) :
    List NameRow × Nat × Nat :=
  match table.find? (fun r => r.name = name) with
  | some r => (table, nextId, r.id)
  | none => (table ++ [⟨nextId, name⟩], nextId + 1, nextId)

/-- Word windows of at most `maxWords` words (the inner `while` loop of
`_chunk_document`), fuel-indexed; the fuel `words.length` suffices. -/
def wordWindows (maxWords : Nat) : Nat → List String → List (List String)
  | 0, _ => []
  | _, [] => []
  | fuel + 1, ws@(_ :: _) => ws.take maxWords :: wordWindows maxWords fuel (ws.drop maxWords)

/-- `_chunk_document(parsed, max_words=120)`: blank-line paragraphs,
word-windowed, with sequential chunk indexes from 0 and the first
heading's text as heading path.  Each element is
`(chunk_index, heading_path, content, token_count)`. -/
def chunkDocument (parsed : ParsedDocument) (maxWords : Nat := 120) :
    List (Nat × String × String × Nat) :=
  let paragraphs := ((splitOnStr "\n\n" parsed.body).map pyStrip).filter (fun p => p ≠ "")
  let headingPath := match parsed.headings with
    | h :: _ => h.text
    | [] => ""
  let windows := (paragraphs.map (fun p =>
    let ws := pyWords p
    wordWindows maxWords ws.length ws)).flatten
  windows.enum.map fun p => (p.1, headingPath, joinSpace p.2, p.2.length)

/-- `upsert_document(db, file_path, parsed)`: insert-or-update the
document row, delete and rewrite all child relations, intern tags and
concepts, rewrite chunks with per-chunk embeddings and the single document
embedding.  `now` stands for `_utc_now_iso()`.  Returns the store and the
document id. -/
def upsertDocument (provider : Provider) (now : String) (st : Store)
    (filePath : String) (parsed : ParsedDocument) : Store × Nat :=
  let existing := st.documents.find? (fun d => d.path = filePath)
  let docId := match existing with
    | some d => d.id
    | none => st.nextDocId
  let newRow : DocRow :=
    ⟨docId, filePath, parsed.title, parsed.summary, parsed.category,
      parsed.body, parsed.contentHash, parsed.tokenEstimate, now, now⟩
  let documents := match existing with
    | some _ => st.documents.map (fun d => if d.path = filePath then newRow else d)
    | none => st.documents ++ [newRow]
  let nextDocId := match existing with
    | some _ => st.nextDocId
    | none => st.nextDocId + 1
  let headings := (st.headings.filter (fun h => h.docId ≠ docId)) ++
    parsed.headings.map (fun h => ⟨docId, h.level, h.text, h.anchor, h.position⟩)
  let links := (st.links.filter (fun l => l.docId ≠ docId)) ++
    parsed.links.map (fun l => ⟨docId, l.target, l.isExternal⟩)
  let tagState := parsed.tags.foldl
    (fun acc tag =>
      let g := getOrCreateId acc.1 acc.2.1 (pyLower tag)
      (g.1, g.2.1,
        if (docId, g.2.2) ∈ acc.2.2 then acc.2.2 else acc.2.2 ++ [(docId, g.2.2)]))
    (st.tags, st.nextNameId, st.docTags.filter (fun e => e.1 ≠ docId))
  let conceptState := parsed.concepts.foldl
    (fun acc concept =>
      let g := getOrCreateId acc.1 acc.2.1 (pyLower concept)
      (g.1, g.2.1,
        if (docId, g.2.2) ∈ acc.2.2 then acc.2.2 else acc.2.2 ++ [(docId, g.2.2)]))
    (st.concepts, tagState.2.1, st.docConcepts.filter (fun e => e.1 ≠ docId))
  let chunkRows := (chunkDocument parsed).map fun c =>
    ChunkRow.mk docId c.1 c.2.1 c.2.2.1 c.2.2.2 (some (provider c.2.2.1).1)
  let chunks := (st.chunks.filter (fun c => c.docId ≠ docId)) ++ chunkRows
  let embeddingSource := joinSpace
    [parsed.title, parsed.summary, parsed.body, joinSpace parsed.tags,
      joinSpace parsed.concepts, parsed.category.getD ""]
  let docEmb := provider embeddingSource
  let newEmbRow : EmbeddingRow := ⟨docId, some docEmb.1, docEmb.2, now⟩
  let embeddings :=
    if st.embeddings.any (fun e => e.docId = docId) then
      st.embeddings.map (fun e => if e.docId = docId then newEmbRow else e)
    else st.embeddings ++ [newEmbRow]
  (⟨documents, headings, links, tagState.1, tagState.2.2, conceptState.1,
    conceptState.2.2, chunks, embeddings, st.queryCache, nextDocId,
    conceptState.2.1, st.nextCacheId⟩, docId)

/-- `delete_document_by_path(db, file_path)`: delete the document row;
foreign keys cascade-delete all child relations.  Returns whether a row
was removed. -/
def deleteDocumentByPath (st : Store) (filePath : String) : Store × Bool :=
  let victims := (st.documents.filter (fun d => d.path = filePath)).map (fun d => d.id)
  (⟨st.documents.filter (fun d => d.path ≠ filePath),
    st.headings.filter (fun h => h.docId ∉ victims),
    st.links.filter (fun l => l.docId ∉ victims),
    st.tags,
    st.docTags.filter (fun e => e.1 ∉ victims),
    st.concepts,
    st.docConcepts.filter (fun e => e.1 ∉ victims),
    st.chunks.filter (fun c => c.docId ∉ victims),
    st.embeddings.filter (fun e => e.docId ∉ victims),
    st.queryCache, st.nextDocId, st.nextNameId, st.nextCacheId⟩,
   ¬ victims.isEmpty)

/-- `DocumentRecord` (`_rows_to_records` applied to a documents row; NULLs
become `""`/`0`). -/
structure DocumentRecord where
  id : Nat
  path : String
  title : String
  summary : String
  category : String
  tokenEstimate : Nat
  updatedAt : String
  deriving DecidableEq, Repr

/-- Project a documents row to a `DocumentRecord`. -/
def toRecord (d : DocRow) : DocumentRecord :=
  ⟨d.id, d.path, d.title, d.summary, d.category.getD "", d.tokenEstimate, d.updatedAt⟩

/-- SQLite `LIMIT n` with a possibly negative `n` (negative means no
limit). -/
def sqlLimit (n : Int) (l : List α) : List α :=
  if n < 0 then l else l.take n.toNat

/-- SQLite ASCII-case-insensitive `LIKE '%pat%'`. -/
def likeContains (field pat : String) : Bool :=
  strContains (pyLower field) (pyLower pat)

/-- `search_documents(db, query, limit)`: substring match of the trimmed
query against title, summary, path, ordered by `updated_at` descending
(stable in rowid order), capped at `limit`. -/
def searchDocuments (st : Store) (query : String) (limit : Int) : List DocumentRecord :=
  let pat := pyStrip query
  let rows := st.documents.filter fun d =>
    likeContains d.title pat || likeContains d.summary pat || likeContains d.path pat
  (sqlLimit limit (stableSortBy (fun a b => b.updatedAt ≤ a.updatedAt) rows)).map toRecord

/-- `_fetch_cache(connection, query_hash)`: the cached id list for a hash,
bumping `hit_count` and `last_accessed` on the found row; `none` when no
row exists. -/
def fetchCache (st : Store) (queryHash : String) (now : String) :
    Option (List Nat) × Store :=
  match st.queryCache.find? (fun c => c.queryHash = queryHash) with
  | none => (none, st)
  | some r =>
    (some r.resultIds,
     { st with queryCache := st.queryCache.map fun c =>
        if c.id = r.id then { c with hitCount := c.hitCount + 1, lastAccessed := now }
        else c })

/-- `_store_cache(connection, query_hash, query_text, document_ids)`:
insert, or on hash conflict update everything except `hit_count`. -/
def storeCache (st : Store) (queryHash queryText : String) (documentIds : List Nat)
    (now : String) : Store :=
  if st.queryCache.any (fun c => c.queryHash = queryHash) then
    { st with queryCache := st.queryCache.map fun c =>
        if c.queryHash = queryHash then
          { c with queryText := queryText, resultIds := documentIds,
                   createdAt := now, lastAccessed := now }
        else c }
  else
    { st with
      queryCache := st.queryCache ++
        [⟨st.nextCacheId, queryHash, queryText, documentIds, now, 0, now⟩],
      nextCacheId := st.nextCacheId + 1 }

/-- Python truthiness of the fetched cache value (`if cached_ids:`):
false for `None` and for the empty list. -/
def truthyIds (o : Option (List Nat)) : Bool := ¬ (o.getD []).isEmpty

/-- Python dict lookup built by `{row.id: row for row in rows}`: the last
row with the given id wins. -/
def lookupLastById (rows : List DocRow) (i : Nat) : Option DocRow :=
  rows.foldl (fun acc r => if r.id = i then some r else acc) none

/-- The cache-hit result assembly of `semantic_search_documents`: fetch the
rows whose ids are cached (table scan order), then re-order them by the
cached id list, silently dropping ids without a row. -/
def cachedHitRows (st : Store) (cachedIds : List Nat) : List DocRow :=
  let rows := st.documents.filter (fun d => d.id ∈ cachedIds)
  cachedIds.filterMap (fun i => lookupLastById rows i)

/-- The per-document relevance score of the cache-miss scan, given the
tokenized query `qt` and the query embedding `qv` (the loop body of
`semantic_search_documents`).  `year` stands for
`datetime.now(tz=timezone.utc).year`. -/
def scoreDocument (st : Store) (year : Nat) (qt : Finset String) (qv : List ℚ)
    (d : DocRow) : ℚ :=
  let haystack := joinSpace [d.path, d.title, d.summary, d.content]
  let tokens := tokenizeSet haystack
  let overlap := (qt ∩ tokens).card
  let lexicalScore : ℚ := if 0 < overlap then (overlap : ℚ) / (max 1 qt.card : ℕ) else 0
  let docEmb := ((st.embeddings.find? (fun e => e.docId = d.id)).bind
    (fun e => e.embedding)).getD []
  let vectorScore := cosineSimilarity qv docEmb
  let chunkScores := ((st.chunks.filter (fun c => c.docId = d.id)).filterMap
    (fun c => c.embedding)).map (fun e => cosineSimilarity qv e)
  let chunkScore := match chunkScores with
    | [] => 0
    | s :: rest => rest.foldl max s
  let conceptNames := ((st.docConcepts.filter (fun e => e.1 = d.id)).filterMap
    (fun e => (st.concepts.find? (fun c => c.id = e.2)).map (fun c => c.name))).toFinset
  let conceptScore : ℚ := if (qt ∩ conceptNames).Nonempty then 1 else 0
  let freshnessBonus : ℚ := if pyStartsWith d.updatedAt (toString year) then 1 / 20 else 0
  45 / 100 * vectorScore + 30 / 100 * chunkScore + 20 / 100 * lexicalScore +
    5 / 100 * conceptScore + freshnessBonus

/-- The scored row list of the cache-miss scan: every document with its
score, keeping only scores strictly above 0 (`if score <= 0.0: continue`). -/
def scoredList (st : Store) (year : Nat) (qt : Finset String) (qv : List ℚ) :
    List (ℚ × DocRow) :=
  st.documents.filterMap fun d =>
    let score := scoreDocument st year qt qv d
    if 0 < score then some (score, d) else none

/-- The comparison behind `scored.sort(key=lambda item: (item[0],
str(item[1][6])), reverse=True)`: `a` sorts before `b` when its
`(score, updated_at)` key is lexicographically at least `b`'s. -/
def rankKeyGE (a b : ℚ × DocRow) : Bool :=
  b.1 < a.1 || (a.1 = b.1 && b.2.updatedAt ≤ a.2.updatedAt)

/-- The sorted scored rows of the cache-miss scan (Python's sort is stable;
`stableSortBy` is the stable sort placing `a` before `b` iff
`rankKeyGE a b`). -/
def rankedList (st : Store) (year : Nat) (qt : Finset String) (qv : List ℚ) :
    List (ℚ × DocRow) :=
  stableSortBy rankKeyGE (scoredList st year qt qv)

/-- `scored[: max(1, limit)]` applied to the ranked rows. -/
def topRows (st : Store) (year : Nat) (qt : Finset String) (qv : List ℚ)
    (limit : Int) : List DocRow :=
  ((rankedList st year qt qv).take (max 1 limit).toNat).map (fun p => p.2)

/-- `semantic_search_documents(db, query, limit=10)` with the current UTC
year and timestamp as explicit parameters.  Returns the result list and
the post-commit store. -/
def semanticSearch (provider : Provider) (year : Nat) (now : String) (st : Store)
    (query : String) (limit : Int) : List DocumentRecord × Store :=
  let cleaned := pyLower (pyStrip query)
  if cleaned = "" then ([], st)
  else
    let queryHash := sha256Hex ("semantic:" ++ cleaned ++ ":" ++ toString limit)
    let fetched := fetchCache st queryHash now
    let st1 := fetched.2
    if truthyIds fetched.1 then
      ((cachedHitRows st1 (fetched.1.getD [])).map toRecord, st1)
    else
      let qt := tokenizeSet cleaned
      let qv := (provider cleaned).1
      let top := topRows st1 year qt qv limit
      if top.isEmpty then
        let fallback := searchDocuments st1 query limit
        (fallback, storeCache st1 queryHash cleaned (fallback.map (fun r => r.id)) now)
      else
        (top.map toRecord, storeCache st1 queryHash cleaned (top.map (fun d => d.id)) now)

/-- The selection loop of `_select_content`: append whole chunk contents
while they fit the budget; at the first overflow append the word prefix
filling the remaining budget (nothing when the budget is already spent)
and stop.  A `none` budget disables the check. -/
def selectPieces : Option Int → Int → List (String × Nat) → List String
  | _, _, [] => []
  | none, used, (c, tc) :: rest => c :: selectPieces none (used + tc) rest
  | some b, used, (c, tc) :: rest =>
    if b < used + (tc : Int) then
      if used < b then [joinSpace ((pyWords c).take (b - used).toNat)] else []
    else c :: selectPieces (some b) (used + tc) rest

/-- `_select_content`'s budget guard and blank-line join, applied to
already-fetched `(content, token_count)` chunk rows: a `max_tokens` that
is `None` or not positive means no budget. -/
def selectContent (rows : List (String × Nat)) (maxTokens : Option Int) : String :=
  let budget := match maxTokens with
    | some m => if 0 < m then some m else none
    | none => none
  joinStr "\n\n" (selectPieces budget 0 rows)

/-- The chunk rows of a document fetched by `_select_content`, ordered by
`chunk_index`, optionally filtered to heading paths containing `section`
(case-insensitively; an empty `section` is falsy and means no filter). -/
def chunkRowsFor (st : Store) (docId : Nat) (sect : Option String) :
    List (String × Nat) :=
  let rows := st.chunks.filter (fun c => c.docId = docId)
  let filtered := match sect with
    | some sec =>
      if sec ≠ "" then
        rows.filter (fun c => strContains (pyLower c.headingPath) (pyLower sec))
      else rows
    | none => rows
  (stableSortBy (fun a b => a.chunkIndex ≤ b.chunkIndex) filtered).map
    (fun c => (c.content, c.tokenCount))

/-- The `content` field assembled by `get_document(id, include_content,
max_tokens, section)`. -/
def getDocumentContent (st : Store) (docId : Nat) (includeContent : Bool)
    (maxTokens : Option Int) (sect : Option String) : String :=
  if includeContent then selectContent (chunkRowsFor st docId sect) maxTokens
  else ""

/-! ## Event queue (`watcher/service.py`) -/

/-- `event_type`. -/
inductive EventType where
  | upsert
  | delete
  deriving DecidableEq, Repr

/-- `status` of a queue event. -/
inductive EventStatus where
  | queued
  | processing
  | done
  | failed
  deriving DecidableEq, Repr

/-- A row of `events`.  Timestamps are ISO strings in the source, compared
lexicographically by SQLite, which orders them chronologically; the model
uses `Nat` ticks. -/
structure EventRow where
  id : Nat
  etype : EventType
  path : String
  createdAt : Nat
  updatedAt : Nat
  status : EventStatus
  attempts : Nat
  lastError : Option String
  deriving DecidableEq, Repr

/-- The events table plus its rowid counter. -/
structure QState where
  rows : List EventRow
  nextId : Nat
  deriving DecidableEq, Repr

/-- The queue of a fresh database. -/
def initialQ : QState := ⟨[], 1⟩

/-- The accumulator step of `ORDER BY id DESC LIMIT 1`: keep the row with
the greater id. -/
def latestStep (acc : Option EventRow) (r : EventRow) : Option EventRow :=
  match acc with
  | none => some r
  | some a => if a.id ≤ r.id then some r else some a

/-- `SELECT ... WHERE path = ? AND status = 'queued' ORDER BY id DESC
LIMIT 1`: the queued row for `p` with the greatest id. -/
def latestQueuedFor (s : QState) (p : String) : Option EventRow :=
  (s.rows.filter (fun r => r.path = p ∧ r.status = .queued)).foldl latestStep none

/-- `_desired_event_type(path, deleted_paths)`. -/
def desiredEventType (deleted : List String) (p : String) : EventType :=
  if p ∈ deleted then .delete else .upsert

/-- The per-path body of `_queue_events`: coalesce onto an existing queued
row (skip on equal type, retype and re-stamp on different type) or insert
a fresh queued row with attempts 0. -/
def enqueueOne (now : Nat) (s : QState) (p : String) (t : EventType) : QState :=
  match latestQueuedFor s p with
  | some e =>
    if e.etype = t then s
    else { s with rows := s.rows.map fun r =>
      if r.id = e.id then { r with etype := t, createdAt := now, updatedAt := now }
      else r }
  | none =>
    { rows := s.rows ++ [⟨s.nextId, t, p, now, now, .queued, 0, none⟩],
      nextId := s.nextId + 1 }

/-- `_queue_events(db, changed_paths, deleted_paths)`: iterate the sorted
set of all paths. -/
def enqueueEvents (now : Nat) (changed deleted : List String) (s : QState) : QState :=
  let allPaths := stableSortBy (fun a b => a ≤ b) (changed ++ deleted).dedup
  allPaths.foldl (fun st p => enqueueOne now st p (desiredEventType deleted p)) s

/-- The accumulator step of `ORDER BY created_at ASC, id ASC LIMIT 1`:
keep the row with the lexicographically smaller `(created_at, id)`. -/
def selectStep (acc : Option EventRow) (r : EventRow) : Option EventRow :=
  match acc with
  | none => some r
  | some a =>
    if r.createdAt < a.createdAt ∨ (r.createdAt = a.createdAt ∧ r.id < a.id)
    then some r else some a

/-- `SELECT ... WHERE status = 'queued' ORDER BY created_at ASC, id ASC
LIMIT 1`: the first row of a drain scan. -/
def selectNextQueued (s : QState) : Option EventRow :=
  (s.rows.filter (fun r => r.status = .queued)).foldl selectStep none

/-- Set an event's status (the `UPDATE events SET status = ...` steps). -/
def setEventStatus (s : QState) (eid : Nat) (st : EventStatus) (now : Nat) : QState :=
  { s with rows := s.rows.map fun r =>
      if r.id = eid then { r with status := st, updatedAt := now } else r }

/-- The exception branch of `_drain_event_queue`: increment attempts,
store the error text, and re-queue, or mark failed once attempts reach 5. -/
def applyDrainError (s : QState) (eid : Nat) (msg : String) (now : Nat) : QState :=
  { s with rows := s.rows.map fun r =>
      if r.id = eid then
        { r with attempts := r.attempts + 1,
                 status := if 5 ≤ r.attempts + 1 then .failed else .queued,
                 lastError := some msg,
                 updatedAt := now }
      else r }

/-- Fine-grained queue transitions, exposing the intermediate `processing`
status between the `UPDATE ... SET status = 'processing'` commit and the
terminal update of a drain step; enqueues may interleave anywhere. -/
inductive QStepMicro : QState → QState → Prop where
  | enqueue (s : QState) (now : Nat) (changed deleted : List String) :
      QStepMicro s (enqueueEvents now changed deleted s)
  | select (s : QState) (e : EventRow) (now : Nat)
      (h : selectNextQueued s = some e) :
      QStepMicro s (setEventStatus s e.id .processing now)
  | finishOk (s : QState) (e : EventRow) (now : Nat)
      (hm : e ∈ s.rows) (hp : e.status = .processing) :
      QStepMicro s (setEventStatus s e.id .done now)
  | finishErr (s : QState) (e : EventRow) (msg : String) (now : Nat)
      (hm : e ∈ s.rows) (hp : e.status = .processing) :
      QStepMicro s (applyDrainError s e.id msg now)

/-- Reachability from the fresh queue under interleaved fine-grained
steps. -/
def QReachMicro (s : QState) : Prop :=
  Relation.ReflTransGen QStepMicro initialQ s

/-- Coarse queue transitions matching the program's actual single-writer
discipline: each drain step runs a selected queued event to its terminal
or re-queued status before anything else happens (the observer enqueues
strictly between drains). -/
inductive QStepSeq : QState → QState → Prop where
  | enqueue (s : QState) (now : Nat) (changed deleted : List String) :
      QStepSeq s (enqueueEvents now changed deleted s)
  | drainOk (s : QState) (e : EventRow) (now now2 : Nat)
      (h : selectNextQueued s = some e) :
      QStepSeq s (setEventStatus (setEventStatus s e.id .processing now) e.id .done now2)
  | drainErr (s : QState) (e : EventRow) (msg : String) (now now2 : Nat)
      (h : selectNextQueued s = some e) :
      QStepSeq s (applyDrainError (setEventStatus s e.id .processing now) e.id msg now2)

/-- Reachability from the fresh queue under sequential (run-to-completion)
drain steps. -/
def QReachSeq (s : QState) : Prop :=
  Relation.ReflTransGen QStepSeq initialQ s

/-- The number of non-terminal (queued or processing) events for a path. -/
def nonTerminalCount (s : QState) (p : String) : Nat :=
  (s.rows.filter (fun r => r.path = p ∧ (r.status = .queued ∨ r.status = .processing))).length

/-- The number of queued events for a path. -/
def queuedCount (s : QState) (p : String) : Nat :=
  (s.rows.filter (fun r => r.path = p ∧ r.status = .queued)).length

/-! ## Spec-side definitions used by theorem statements -/

/-- The strict ranking order claimed by the spec: score descending, then
`updated_at` descending, then id ascending. -/
def rankLT (a b : ℚ × DocRow) : Prop :=
  b.1 < a.1 ∨ (a.1 = b.1 ∧ b.2.updatedAt < a.2.updatedAt) ∨
    (a.1 = b.1 ∧ a.2.updatedAt = b.2.updatedAt ∧ a.2.id < b.2.id)

/-- The spec's fallback summary: join of the first two non-blank body
lines, truncated to 280 characters. -/
def specFallbackSummary (body : String) : String :=
  String.mk
    ((joinSpace ((((pyLines body).map pyStrip).filter (fun ln => ln ≠ "")).take 2)).toList.take 280)

/-- The spec's lexical component `lex = |qt ∩ dt| / max(1, |qt|)` over a
document-token set `dt`. -/
def specLex (qt dt : Finset String) : ℚ :=
  ((qt ∩ dt).card : ℚ) / ((max 1 qt.card : ℕ) : ℚ)

/-- The relevance score exactly as the claim states it: weighted sum with
the lexical component computed over the document's body tokens only.  The
vector, chunk, concept and freshness components repeat the code's
computation (they are not in dispute). -/
def specClaimScore (st : Store) (year : Nat) (qt : Finset String) (qv : List ℚ)
    (d : DocRow) : ℚ :=
  let docEmb := ((st.embeddings.find? (fun e => e.docId = d.id)).bind
    (fun e => e.embedding)).getD []
  let vectorScore := cosineSimilarity qv docEmb
  let chunkScores := ((st.chunks.filter (fun c => c.docId = d.id)).filterMap
    (fun c => c.embedding)).map (fun e => cosineSimilarity qv e)
  let chunkScore : ℚ := match chunkScores with
    | [] => 0
    | s :: rest => rest.foldl max s
  let conceptNames := ((st.docConcepts.filter (fun e => e.1 = d.id)).filterMap
    (fun e => (st.concepts.find? (fun c => c.id = e.2)).map (fun c => c.name))).toFinset
  let conceptScore : ℚ := if (qt ∩ conceptNames).Nonempty then 1 else 0
  let freshnessBonus : ℚ := if pyStartsWith d.updatedAt (toString year) then 1 / 20 else 0
  45 / 100 * vectorScore + 30 / 100 * chunkScore +
    20 / 100 * specLex qt (tokenizeSet d.content) +
    5 / 100 * conceptScore + freshnessBonus

/-- Equality of everything `semantic_search_documents` scores over (all
store components except the query cache and the id counters). -/
def corpusEq (a b : Store) : Prop :=
  a.documents = b.documents ∧ a.embeddings = b.embeddings ∧ a.chunks = b.chunks ∧
    a.concepts = b.concepts ∧ a.docConcepts = b.docConcepts

/-- Total token count of `(content, token_count)` chunk rows. -/
def sumTokens (rows : List (String × Nat)) : Nat := (rows.map (fun r => r.2)).sum

/-- The `cleaned` query of `semantic_search_documents`. -/
def cleanedQuery (query : String) : String := pyLower (pyStrip query)

/-- The cache key `SHA-256("semantic:" + cleaned + ":" + limit)`. -/
def semanticQueryHash (cleaned : String) (limit : Int) : String :=
  sha256Hex ("semantic:" ++ cleaned ++ ":" ++ toString limit)

/-- The relevance-score formula with the lexical component over the
haystack the code actually tokenizes: the concatenation of path, title,
summary and body. -/
def specHaystackScore (st : Store) (year : Nat) (qt : Finset String) (qv : List ℚ)
    (d : DocRow) : ℚ :=
  let docEmb := ((st.embeddings.find? (fun e => e.docId = d.id)).bind
    (fun e => e.embedding)).getD []
  let vectorScore := cosineSimilarity qv docEmb
  let chunkScores := ((st.chunks.filter (fun c => c.docId = d.id)).filterMap
    (fun c => c.embedding)).map (fun e => cosineSimilarity qv e)
  let chunkScore : ℚ := match chunkScores with
    | [] => 0
    | s :: rest => rest.foldl max s
  let conceptNames := ((st.docConcepts.filter (fun e => e.1 = d.id)).filterMap
    (fun e => (st.concepts.find? (fun c => c.id = e.2)).map (fun c => c.name))).toFinset
  let conceptScore : ℚ := if (qt ∩ conceptNames).Nonempty then 1 else 0
  let freshnessBonus : ℚ := if pyStartsWith d.updatedAt (toString year) then 1 / 20 else 0
  45 / 100 * vectorScore + 30 / 100 * chunkScore +
    20 / 100 * specLex qt (tokenizeSet (joinSpace [d.path, d.title, d.summary, d.content])) +
    5 / 100 * conceptScore + freshnessBonus

/-- The final piece of the budget selection: the word prefix of the first
unconsumed chunk that fills the remaining budget, or nothing when the
budget is spent or no chunk remains. -/
def partPiece (b used : Int) (post : List (String × Nat)) : List String :=
  match post with
  | [] => []
  | (c, _) :: _ =>
    if 0 < b - used then [joinSpace ((pyWords c).take (b - used).toNat)] else []

/-! ## Theorems -/

/-- Helper: a string whose token set is empty yields the all-zero count
vector and the zero embedding. -/
lemma hashEmbedding_of_tokens_empty (s : String) (h : tokenizeSet s = ∅) :
    hashEmbedding s = List.replicate 64 0 := by
  have hc : hashCounts 64 s = List.replicate 64 0 := by
    unfold hashCounts
    rw [h]
    simp [Finset.filter_empty, List.map_const']
  have hn : hashNormSq 64 s = 0 := by
    unfold hashNormSq
    rw [hc]
    simp
  unfold hashEmbedding
  rw [if_pos hn, hc]
  simp

/-- Claim C1.  The source's `upsert_document` and `delete_document_by_path`
never touch the `query_cache` table: both operations leave it exactly as it
was, and in a concrete run (semantic search on an empty corpus, then an
upsert, then a delete) the cache entry created before the writes is still
present after both — the repository's own tests
`test_cache_invalidated_on_upsert` / `test_cache_invalidated_on_delete`
expect a count of 0 here. -/
theorem write_operations_preserve_query_cache :
    (∀ (provider : Provider) (now : String) (st : Store) (path : String)
        (parsed : ParsedDocument),
        ((upsertDocument provider now st path parsed).1).queryCache = st.queryCache) ∧
      (∀ (st : Store) (path : String),
        ((deleteDocumentByPath st path).1).queryCache = st.queryCache) ∧
      (deleteDocumentByPath
          ((upsertDocument (fun _ => ([], "m")) "t2"
            (semanticSearch (fun _ => ([], "m")) 2025 "t1" emptyStore "kube" 5).2
            "/d.md" (parseMarkdown "# Kube\nkube")).1)
          "/d.md").1.queryCache.length = 1 :=
  ⟨fun _ _ _ _ _ => rfl, fun _ _ => rfl, by decide⟩

/-- Claim C3, counterexample.  On input `"---\nsummary: hello\n---\nworld"`
the frontmatter `summary` key is present with value `"hello"`, yet the
parsed summary is `"world"` (the first-two-lines fallback), so the parsed
summary does not equal the frontmatter summary. -/
theorem parse_markdown_summary_ignores_frontmatter :
    fmGet (parseMarkdown "---\nsummary: hello\n---\nworld").frontmatter "summary" =
        some "hello" ∧
      (parseMarkdown "---\nsummary: hello\n---\nworld").summary = "world" ∧
      ("world" : String) ≠ "hello" :=
  ⟨by decide, by decide, by decide⟩

/-- Claim C3, amended.  The summary of the `ParsedDocument` returned by
`parse_markdown` always equals the join of the first two non-blank body
lines truncated to 280 characters, whether or not a frontmatter `summary`
key is present; the frontmatter summary is honored only by
`generate_summary`. -/
theorem parse_markdown_summary_always_fallback :
    (∀ text : String,
        (parseMarkdown text).summary = specFallbackSummary (parseMarkdown text).body) ∧
      (∀ parsed : ParsedDocument,
        pyStrip ((fmGet parsed.frontmatter "summary").getD "") ≠ "" →
          generateSummary parsed = pyStrip ((fmGet parsed.frontmatter "summary").getD "")) :=
  ⟨fun _ => rfl, fun parsed h => by rw [generateSummary, if_pos h]⟩

/-- Claim C3 witness: the amended claim at the counterexample input. -/
theorem parse_markdown_summary_always_fallback_witness :
    (parseMarkdown "---\nsummary: hello\n---\nworld").summary =
        specFallbackSummary (parseMarkdown "---\nsummary: hello\n---\nworld").body ∧
      (pyStrip ((fmGet (parseMarkdown "---\nsummary: hello\n---\nworld").frontmatter
          "summary").getD "") ≠ "" ∧
        generateSummary (parseMarkdown "---\nsummary: hello\n---\nworld") =
          pyStrip ((fmGet (parseMarkdown "---\nsummary: hello\n---\nworld").frontmatter
            "summary").getD "")) :=
  ⟨parse_markdown_summary_always_fallback.1 "---\nsummary: hello\n---\nworld",
   by decide,
   parse_markdown_summary_always_fallback.2
     (parseMarkdown "---\nsummary: hello\n---\nworld") (by decide)⟩

/-- Claim C4, counterexample.  A document whose title is `"kube"` but
whose body is empty scores `1/5` for the query `"kube"` (its lexical
component fires on the title token), while the claimed formula with the
lexical component over body tokens only gives `0`. -/
theorem semantic_score_lexical_counterexample :
    scoreDocument
        ⟨[⟨1, "/d.md", "kube", "", none, "", "h", 1, "x", "x"⟩],
          [], [], [], [], [], [], [], [], [], 2, 1, 1⟩
        2025 (tokenizeSet "kube") []
        ⟨1, "/d.md", "kube", "", none, "", "h", 1, "x", "x"⟩ = 1 / 5 ∧
      specClaimScore
        ⟨[⟨1, "/d.md", "kube", "", none, "", "h", 1, "x", "x"⟩],
          [], [], [], [], [], [], [], [], [], 2, 1, 1⟩
        2025 (tokenizeSet "kube") []
        ⟨1, "/d.md", "kube", "", none, "", "h", 1, "x", "x"⟩ = 0 ∧
      (1 / 5 : ℚ) ≠ 0 := by
  refine ⟨?_, ?_, by norm_num⟩
  · have h1 : (tokenizeSet "kube" ∩
        tokenizeSet (joinSpace ["/d.md", "kube", "", ""])).card = 1 := by decide
    have h2 : (tokenizeSet "kube").card = 1 := by decide
    have h3 : leadsList (toString 2025).data ['x'] = false := by decide
    have h4 : (tokenizeSet "kube" ∩
        tokenizeSet (joinSpace ["/d.md", "kube", "", ""])).Nonempty := by
      rw [← Finset.card_pos, h1]; norm_num
    simp [scoreDocument, cosineSimilarity, pyStartsWith, h3, h4, h1, h2]
    norm_num
  · have h1 : (tokenizeSet "kube" ∩ tokenizeSet "").card = 0 := by decide
    have h3 : leadsList (toString 2025).data ['x'] = false := by decide
    simp [specClaimScore, cosineSimilarity, pyStartsWith, specLex, h3, h1]

/-- Claim C4, amended.  For every store, year, query token set, query
vector and document row, the score computed by the cache-miss scan of
`semantic_search_documents` equals
`0.45·vec + 0.30·chunk + 0.20·lex + 0.05·concept + fresh` where the
lexical component is `|qt ∩ ht| / max(1, |qt|)` over the token set `ht` of
the concatenation of the document's path, title, summary and body. -/
theorem semantic_score_formula_haystack (st : Store) (year : Nat)
    (qt : Finset String) (qv : List ℚ) (d : DocRow) :
    scoreDocument st year qt qv d = specHaystackScore st year qt qv d := by
  unfold scoreDocument specHaystackScore specLex
  dsimp only
  by_cases h : 0 < (qt ∩ tokenizeSet (joinSpace [d.path, d.title, d.summary, d.content])).card
  · rw [if_pos h]
  · rw [if_neg h]
    have h0 : (qt ∩ tokenizeSet (joinSpace [d.path, d.title, d.summary, d.content])).card = 0 := by
      omega
    rw [h0]
    norm_num

/-- Claim C5, counterexample.  The input `"a"` is non-empty, yet it has no
token of length at least 2, so `_hash_embedding` returns the all-zero
vector, whose norm is 0, not 1. -/
theorem hash_embedding_zero_on_nonempty_input :
    hashEmbedding "a" = List.replicate 64 0 ∧
      l2NormSq (hashEmbedding "a") = 0 ∧ ("a" : String) ≠ "" := by
  have h := hashEmbedding_of_tokens_empty "a" (by decide)
  refine ⟨h, ?_, by decide⟩
  rw [h]
  simp [l2NormSq]

/-- Helper: casting a sum of squared naturals from `ℚ` to `ℝ`. -/
lemma sum_sq_cast (l : List ℕ) :
    (l.map fun v : ℕ => (v : ℝ) * (v : ℝ)).sum =
      (((l.map fun v : ℕ => (v : ℚ) * (v : ℚ)).sum : ℚ) : ℝ) := by
  induction l with
  | nil => simp
  | cons x xs ih =>
    simp only [List.map_cons, List.sum_cons, ih]
    push_cast
    ring

/-- Claim C5, amended.  For every input string, the vector produced by the
`token-hash-v1` provider is the all-zero vector exactly when the input's
token set (maximal lowercase-alphanumeric runs of length at least 2) is
empty, and has squared L2 norm exactly 1 (hence norm 1, well within 1e-6)
whenever the token set is non-empty. -/
theorem hash_embedding_unit_or_zero (s : String) :
    (tokenizeSet s = ∅ ∧ hashEmbedding s = List.replicate 64 0) ∨
      (tokenizeSet s ≠ ∅ ∧ l2NormSq (hashEmbedding s) = 1) := by
  by_cases h : tokenizeSet s = ∅
  · exact Or.inl ⟨h, hashEmbedding_of_tokens_empty s h⟩
  · refine Or.inr ⟨h, ?_⟩
    obtain ⟨t, ht⟩ := Finset.nonempty_iff_ne_empty.mpr h
    have hb : hashBucket 64 t < 64 := Nat.mod_lt _ (by norm_num)
    have hcard : 1 ≤ ((tokenizeSet s).filter
        (fun u => hashBucket 64 u = hashBucket 64 t)).card := by
      refine Finset.card_pos.mpr ⟨t, ?_⟩
      exact Finset.mem_filter.mpr ⟨ht, by simp⟩
    have hmem :
        ((((tokenizeSet s).filter
            (fun u => hashBucket 64 u = hashBucket 64 t)).card : ℚ) *
          (((tokenizeSet s).filter
            (fun u => hashBucket 64 u = hashBucket 64 t)).card : ℚ)) ∈
          (hashCounts 64 s).map (fun v : ℕ => (v : ℚ) * (v : ℚ)) := by
      unfold hashCounts
      rw [List.map_map]
      exact List.mem_map.mpr ⟨hashBucket 64 t, List.mem_range.mpr hb, rfl⟩
    have hpos : 0 < hashNormSq 64 s := by
      unfold hashNormSq
      have hone : (1 : ℚ) ≤ (((tokenizeSet s).filter
          (fun u => hashBucket 64 u = hashBucket 64 t)).card : ℚ) *
          (((tokenizeSet s).filter
            (fun u => hashBucket 64 u = hashBucket 64 t)).card : ℚ) := by
        have hq : (1 : ℚ) ≤ (((tokenizeSet s).filter
            (fun u => hashBucket 64 u = hashBucket 64 t)).card : ℚ) := by
          exact_mod_cast hcard
        nlinarith
      have hsum := List.single_le_sum
        (l := (hashCounts 64 s).map (fun v : ℕ => (v : ℚ) * (v : ℚ)))
        (by intro x hx
            obtain ⟨v, _, rfl⟩ := List.mem_map.mp hx
            positivity)
        _ hmem
      linarith
    have hSne : hashNormSq 64 s ≠ 0 := ne_of_gt hpos
    have hSposR : (0 : ℝ) < ((hashNormSq 64 s : ℚ) : ℝ) := by exact_mod_cast hpos
    unfold hashEmbedding
    rw [if_neg hSne]
    unfold l2NormSq
    rw [List.map_map]
    have hterm : ∀ v : ℕ,
        ((fun x => x * x) ∘ fun v : ℕ => (v : ℝ) / Real.sqrt ((hashNormSq 64 s : ℚ) : ℝ)) v =
          ((v : ℝ) * (v : ℝ)) * (((hashNormSq 64 s : ℚ) : ℝ))⁻¹ := by
      intro v
      have hs : Real.sqrt ((hashNormSq 64 s : ℚ) : ℝ) *
          Real.sqrt ((hashNormSq 64 s : ℚ) : ℝ) = ((hashNormSq 64 s : ℚ) : ℝ) :=
        Real.mul_self_sqrt hSposR.le
      show ((v : ℝ) / Real.sqrt ((hashNormSq 64 s : ℚ) : ℝ)) *
          ((v : ℝ) / Real.sqrt ((hashNormSq 64 s : ℚ) : ℝ)) = _
      rw [div_mul_div_comm, hs, div_eq_mul_inv]
    rw [List.map_congr_left (fun v _ => hterm v)]
    rw [List.sum_map_mul_right]
    have hcast : ((hashCounts 64 s).map fun v : ℕ => (v : ℝ) * (v : ℝ)).sum =
        ((hashNormSq 64 s : ℚ) : ℝ) := by
      unfold hashNormSq
      exact sum_sq_cast (hashCounts 64 s)
    rw [hcast]
    exact mul_inv_cancel₀ (ne_of_gt hSposR)

/-- Helper: the budget loop of `_select_content` splits its rows into the
maximal whole-chunk prefix that fits, followed by the partial piece. -/
lemma selectPieces_split (b : Int) :
    ∀ (rows : List (String × Nat)) (used : Int), used ≤ b →
    ∃ pre post, rows = pre ++ post ∧
      used + (sumTokens pre : Int) ≤ b ∧
      selectPieces (some b) used rows =
        pre.map (fun r => r.1) ++ partPiece b (used + (sumTokens pre : Int)) post ∧
      (∀ c tc, post.head? = some (c, tc) → b < used + (sumTokens pre : Int) + tc) := by
  intro rows
  induction rows with
  | nil =>
    intro used hub
    exact ⟨[], [], by simp, by simpa [sumTokens] using hub, by simp [selectPieces, partPiece, sumTokens], by simp⟩
  | cons r rest ih =>
    intro used hub
    obtain ⟨c, tc⟩ := r
    by_cases hov : b < used + (tc : Int)
    · refine ⟨[], (c, tc) :: rest, by simp, by simpa [sumTokens] using hub, ?_, ?_⟩
      · show selectPieces (some b) used ((c, tc) :: rest) = _
        rw [selectPieces]
        rw [if_pos hov]
        simp only [sumTokens, List.map_nil, List.sum_nil, Nat.cast_zero, add_zero,
          List.nil_append, partPiece]
        by_cases hu : used < b
        · rw [if_pos hu, if_pos (by omega)]
        · rw [if_neg hu, if_neg (by omega)]
      · intro c2 tc2 hh
        simp only [List.head?_cons, Option.some.injEq, Prod.mk.injEq] at hh
        obtain ⟨rfl, rfl⟩ := hh
        simpa [sumTokens] using hov
    · have hfit : used + (tc : Int) ≤ b := by omega
      obtain ⟨pre, post, hsplit, hsum, heq, hhead⟩ := ih (used + tc) hfit
      refine ⟨(c, tc) :: pre, post, by simp [hsplit], ?_, ?_, ?_⟩
      · simp only [sumTokens, List.map_cons, List.sum_cons, Nat.cast_add] at hsum ⊢
        omega
      · show selectPieces (some b) used ((c, tc) :: rest) = _
        rw [selectPieces, if_neg hov, heq]
        simp only [sumTokens, List.map_cons, List.sum_cons, List.cons_append,
          Nat.cast_add, add_assoc]
      · intro c2 tc2 hh
        have hlt := hhead c2 tc2 hh
        simp only [sumTokens, List.map_cons, List.sum_cons, Nat.cast_add] at hlt ⊢
        omega

/-- Claim C9.  `get_document` with `include_content=true` and a positive
token budget assembles content by appending whole chunks in chunk-index
order while they fit, then the word prefix of the first overflowing chunk
that exactly fills the remaining budget, joined by blank lines; and on a
document parsed from `"# Budget\none two three four five six"`,
`max_tokens=3` yields content whose word tokens are exactly
`["#", "Budget", "one"]`. -/
theorem get_document_budget_selection :
    (∀ (st : Store) (docId : Nat) (m : Int) (sect : Option String), 0 < m →
        getDocumentContent st docId true (some m) sect =
          joinStr "\n\n" (selectPieces (some m) 0 (chunkRowsFor st docId sect))) ∧
      (∀ (b : Int) (rows : List (String × Nat)), 0 < b →
        (∀ r ∈ rows, r.2 = (pyWords r.1).length) →
        ∃ pre post, rows = pre ++ post ∧
          (sumTokens pre : Int) ≤ b ∧
          selectPieces (some b) 0 rows =
            pre.map (fun r => r.1) ++ partPiece b (sumTokens pre) post ∧
          (∀ c tc, post.head? = some (c, tc) → b < (sumTokens pre : Int) + tc) ∧
          (∀ c tc, post.head? = some (c, tc) → 0 < b - (sumTokens pre : Int) →
            ((pyWords c).take (b - (sumTokens pre : Int)).toNat).length =
              (b - (sumTokens pre : Int)).toNat)) ∧
      pyWords (getDocumentContent
        ((upsertDocument (fun _ => ([], "m")) "t" emptyStore "/b.md"
          (parseMarkdown "# Budget\none two three four five six")).1)
        1 true (some 3) none) = ["#", "Budget", "one"] := by
  refine ⟨?_, ?_, by decide⟩
  · intro st docId m sect hm
    rw [getDocumentContent, if_pos rfl, selectContent]
    simp only [if_pos hm]
  · intro b rows hb hw
    obtain ⟨pre, post, hsplit, hsum, heq, hhead⟩ :=
      selectPieces_split b rows 0 hb.le
    simp only [zero_add] at hsum heq hhead
    refine ⟨pre, post, hsplit, hsum, heq, hhead, ?_⟩
    intro c tc hh hrem
    have hov := hhead c tc hh
    have hlen : tc = (pyWords c).length := by
      refine hw (c, tc) ?_
      rw [hsplit]
      rcases post with _ | ⟨p, ps⟩
      · simp at hh
      · simp only [List.head?_cons, Option.some.injEq] at hh
        subst hh
        exact List.mem_append.mpr (Or.inr (List.mem_cons_self _ _))
    rw [List.length_take]
    omega

/-- Claim C9 witness: the budget-selection theorem applied to a concrete
store and to the single 8-word chunk of the example document with budget
3. -/
theorem get_document_budget_selection_witness :
    (getDocumentContent emptyStore 1 true (some 3) none =
        joinStr "\n\n" (selectPieces (some 3) 0 (chunkRowsFor emptyStore 1 none))) ∧
      (∀ r ∈ [("# Budget one two three four five six", 8)],
        r.2 = (pyWords r.1).length) ∧
      (∃ pre post,
        [("# Budget one two three four five six", 8)] = pre ++ post ∧
        (sumTokens pre : Int) ≤ 3 ∧
        selectPieces (some 3) 0 [("# Budget one two three four five six", 8)] =
          pre.map (fun r => r.1) ++ partPiece 3 (sumTokens pre) post ∧
        (∀ c tc, post.head? = some (c, tc) → 3 < (sumTokens pre : Int) + tc) ∧
        (∀ c tc, post.head? = some (c, tc) → 0 < 3 - (sumTokens pre : Int) →
          ((pyWords c).take (3 - (sumTokens pre : Int)).toNat).length =
            (3 - (sumTokens pre : Int)).toNat)) :=
  ⟨get_document_budget_selection.1 emptyStore 1 3 none (by norm_num),
   by decide,
   get_document_budget_selection.2.1 3
     [("# Budget one two three four five six", 8)] (by norm_num) (by decide)⟩

/-- Helper: a fold with a step that either keeps the accumulator or
replaces it by the current row can only produce a row of the list or the
initial accumulator. -/
lemma foldl_pick_mem {step : Option EventRow → EventRow → Option EventRow}
    (hstep : ∀ acc r, step acc r = some r ∨ step acc r = acc) :
    ∀ (l : List EventRow) (acc : Option EventRow) (e : EventRow),
      l.foldl step acc = some e → e ∈ l ∨ acc = some e := by
  intro l
  induction l with
  | nil => exact fun acc e h => Or.inr h
  | cons r rest ih =>
    intro acc e h
    rcases ih (step acc r) e h with hmem | hacc
    · exact Or.inl (List.mem_cons_of_mem _ hmem)
    · rcases hstep acc r with h1 | h1
      · rw [h1] at hacc
        exact Or.inl (by simp [Option.some_inj.mp hacc])
      · rw [h1] at hacc
        exact Or.inr hacc
/-- Helper: such a fold yields `none` only from the empty list with a
`none` accumulator. -/
lemma foldl_pick_none {step : Option EventRow → EventRow → Option EventRow}
    (hstep : ∀ acc r, step acc r = some r ∨ step acc r = acc)
    (hnone : ∀ r, step none r = some r) :
    ∀ (l : List EventRow) (acc : Option EventRow),
      l.foldl step acc = none → acc = none ∧ l = [] := by
  intro l
  induction l with
  | nil => exact fun acc h => ⟨h, rfl⟩
  | cons r rest ih =>
    intro acc h
    obtain ⟨hacc, _⟩ := ih (step acc r) h
    exfalso
    rcases acc with _ | a
    · rw [hnone r] at hacc
      exact Option.noConfusion hacc
    · rcases hstep (some a) r with h1 | h1 <;> rw [h1] at hacc <;>
        exact Option.noConfusion hacc

/-- Helper: `selectStep` keeps or replaces. -/
lemma selectStep_cases (acc : Option EventRow) (r : EventRow) :
    selectStep acc r = some r ∨ selectStep acc r = acc := by
  rcases acc with _ | a
  · exact Or.inl rfl
  · simp only [selectStep]
    split_ifs <;> simp

/-- Helper: `latestStep` keeps or replaces. -/
lemma latestStep_cases (acc : Option EventRow) (r : EventRow) :
    latestStep acc r = some r ∨ latestStep acc r = acc := by
  rcases acc with _ | a
  · exact Or.inl rfl
  · simp only [latestStep]
    split_ifs <;> simp

/-- Helper: a selected drain event is a queued row of the table. -/
lemma selectNextQueued_spec {s : QState} {e : EventRow}
    (h : selectNextQueued s = some e) : e ∈ s.rows ∧ e.status = .queued := by
  unfold selectNextQueued at h
  rcases foldl_pick_mem selectStep_cases _ _ _ h with hmem | hacc
  · have := List.mem_filter.mp hmem
    exact ⟨this.1, by simpa using of_decide_eq_true this.2⟩
  · exact absurd hacc (by simp)

/-- Helper: no coalescing target means no queued row for the path. -/
lemma latestQueuedFor_none {s : QState} {p : String}
    (h : latestQueuedFor s p = none) :
    s.rows.filter (fun r => r.path = p ∧ r.status = EventStatus.queued) = [] := by
  unfold latestQueuedFor at h
  exact (foldl_pick_none latestStep_cases (fun _ => rfl) _ _ h).2

/-- Claim C8.  A drain scan only ever selects `queued` rows (so a `failed`
event is never picked up again), and when the action for a selected event
raises, the error transition produces a row with attempts incremented by
exactly 1, the error text stored, and status `queued` when the new
attempts value is below 5, `failed` otherwise; rows of other events are
untouched. -/
theorem drain_error_retry_transition :
    (∀ (s : QState) (e : EventRow),
        selectNextQueued s = some e → e.status = EventStatus.queued) ∧
      (∀ (s : QState) (e : EventRow) (msg : String) (now now2 : Nat),
        selectNextQueued s = some e →
        (∃ r ∈ (applyDrainError (setEventStatus s e.id .processing now)
            e.id msg now2).rows,
          r.id = e.id ∧ r.attempts = e.attempts + 1 ∧ r.lastError = some msg ∧
            r.status = (if e.attempts + 1 < 5 then EventStatus.queued
              else EventStatus.failed)) ∧
        (∀ r2 ∈ (applyDrainError (setEventStatus s e.id .processing now)
            e.id msg now2).rows,
          r2.id ≠ e.id → r2 ∈ s.rows)) := by
  constructor
  · intro s e h
    exact (selectNextQueued_spec h).2
  · intro s e msg now now2 h
    have hmem := (selectNextQueued_spec h).1
    constructor
    · refine ⟨{ e with
          status := if 5 ≤ e.attempts + 1 then EventStatus.failed else EventStatus.queued,
          attempts := e.attempts + 1, lastError := some msg, updatedAt := now2 }, ?_, ?_⟩
      · unfold applyDrainError setEventStatus
        simp only [List.map_map]
        refine List.mem_map.mpr ⟨e, hmem, ?_⟩
        simp
      · refine ⟨rfl, rfl, rfl, ?_⟩
        by_cases h5 : e.attempts + 1 < 5
        · rw [if_pos h5, if_neg (by omega)]
        · rw [if_neg h5, if_pos (by omega)]
    · intro r2 hr2 hne
      unfold applyDrainError setEventStatus at hr2
      simp only [List.map_map, List.mem_map] at hr2
      obtain ⟨r0, hr0, hr0eq⟩ := hr2
      by_cases hid : r0.id = e.id
      · exfalso
        apply hne
        rw [← hr0eq]
        simp [hid]
      · rw [← hr0eq]
        simpa [hid] using hr0

/-- Claim C8 witness: the drain-error transition applied to a concrete
queue holding one queued event for path `"a"` with 4 prior attempts. -/
theorem drain_error_retry_transition_witness :
    (selectNextQueued ⟨[⟨1, .upsert, "a", 0, 0, .queued, 4, none⟩], 2⟩ =
        some ⟨1, .upsert, "a", 0, 0, .queued, 4, none⟩ ∧
      EventRow.status ⟨1, .upsert, "a", 0, 0, .queued, 4, none⟩ = EventStatus.queued) ∧
      ((∃ r ∈ (applyDrainError (setEventStatus
          ⟨[⟨1, .upsert, "a", 0, 0, .queued, 4, none⟩], 2⟩ 1 .processing 7)
          1 "boom" 8).rows,
        r.id = 1 ∧ r.attempts = 5 ∧ r.lastError = some "boom" ∧
          r.status = (if 4 + 1 < 5 then EventStatus.queued else EventStatus.failed)) ∧
      (∀ r2 ∈ (applyDrainError (setEventStatus
          ⟨[⟨1, .upsert, "a", 0, 0, .queued, 4, none⟩], 2⟩ 1 .processing 7)
          1 "boom" 8).rows,
        r2.id ≠ 1 → r2 ∈ [⟨1, .upsert, "a", 0, 0, .queued, 4, none⟩])) :=
  ⟨⟨by decide,
    drain_error_retry_transition.1 ⟨[⟨1, .upsert, "a", 0, 0, .queued, 4, none⟩], 2⟩
      ⟨1, .upsert, "a", 0, 0, .queued, 4, none⟩ (by decide)⟩,
   drain_error_retry_transition.2 ⟨[⟨1, .upsert, "a", 0, 0, .queued, 4, none⟩], 2⟩
      ⟨1, .upsert, "a", 0, 0, .queued, 4, none⟩ "boom" 7 8 (by decide)⟩

/-- Claim C6, counterexample.  Under interleaved fine-grained steps the
per-path bound fails: enqueue `"a"`, mark its event `processing`, then
enqueue `"a"` again — the coalescing check looks only at `queued` rows, so
a second non-terminal row for `"a"` is inserted. -/
theorem queue_nonterminal_duplicate_reachable :
    ¬ (∀ s : QState, QReachMicro s → ∀ p, nonTerminalCount s p ≤ 1) := by
  intro h
  have step1 : QStepMicro initialQ (enqueueEvents 0 ["a"] [] initialQ) :=
    QStepMicro.enqueue initialQ 0 ["a"] []
  have hsel : selectNextQueued (enqueueEvents 0 ["a"] [] initialQ) =
      some ⟨1, .upsert, "a", 0, 0, .queued, 0, none⟩ := by decide
  have step2 := QStepMicro.select (enqueueEvents 0 ["a"] [] initialQ)
    ⟨1, .upsert, "a", 0, 0, .queued, 0, none⟩ 1 hsel
  have step3 : QStepMicro
      (setEventStatus (enqueueEvents 0 ["a"] [] initialQ) 1 .processing 1)
      (enqueueEvents 2 ["a"] []
        (setEventStatus (enqueueEvents 0 ["a"] [] initialQ) 1 .processing 1)) :=
    QStepMicro.enqueue _ 2 ["a"] []
  have reach : QReachMicro (enqueueEvents 2 ["a"] []
      (setEventStatus (enqueueEvents 0 ["a"] [] initialQ) 1 .processing 1)) :=
    Relation.ReflTransGen.head step1
      (Relation.ReflTransGen.head step2 (Relation.ReflTransGen.single step3))
  have hcount : ¬ (nonTerminalCount (enqueueEvents 2 ["a"] []
      (setEventStatus (enqueueEvents 0 ["a"] [] initialQ) 1 .processing 1)) "a" ≤ 1) := by
    decide
  exact hcount (h _ reach "a")

/-- Helper: the queue invariant (no `processing` rows, fresh ids below the
counter, distinct ids, at most one queued row per path) is preserved by
one `enqueueOne`. -/
lemma queue_inv_enqueueOne (now : Nat) (s : QState) (p : String) (t : EventType)
    (h1 : ∀ r ∈ s.rows, r.status ≠ EventStatus.processing)
    (h2 : ∀ r ∈ s.rows, r.id < s.nextId)
    (h3 : (s.rows.map (fun r => r.id)).Nodup)
    (h4 : ∀ q, queuedCount s q ≤ 1) :
    (∀ r ∈ (enqueueOne now s p t).rows, r.status ≠ EventStatus.processing) ∧
      (∀ r ∈ (enqueueOne now s p t).rows, r.id < (enqueueOne now s p t).nextId) ∧
      ((enqueueOne now s p t).rows.map (fun r => r.id)).Nodup ∧
      (∀ q, queuedCount (enqueueOne now s p t) q ≤ 1) := by
  unfold enqueueOne
  cases hlq : latestQueuedFor s p with
  | some e =>
    dsimp only
    by_cases ht : e.etype = t
    · rw [if_pos ht]
      exact ⟨h1, h2, h3, h4⟩
    · rw [if_neg ht]
      have hpt : ∀ r : EventRow,
          ((if r.id = e.id then { r with etype := t, createdAt := now, updatedAt := now }
            else r) : EventRow).status = r.status ∧
          ((if r.id = e.id then { r with etype := t, createdAt := now, updatedAt := now }
            else r) : EventRow).path = r.path ∧
          ((if r.id = e.id then { r with etype := t, createdAt := now, updatedAt := now }
            else r) : EventRow).id = r.id := by
        intro r
        by_cases hid : r.id = e.id <;> simp [hid]
      refine ⟨?_, ?_, ?_, ?_⟩
      · intro r' hr'
        obtain ⟨r0, hr0, rfl⟩ := List.mem_map.mp hr'
        rw [(hpt r0).1]
        exact h1 r0 hr0
      · intro r' hr'
        obtain ⟨r0, hr0, rfl⟩ := List.mem_map.mp hr'
        rw [(hpt r0).2.2]
        exact h2 r0 hr0
      · rw [List.map_map]
        have : ((fun r : EventRow => r.id) ∘ fun r =>
            if r.id = e.id then { r with etype := t, createdAt := now, updatedAt := now }
            else r) = fun r : EventRow => r.id := by
          funext r
          exact (hpt r).2.2
        rw [this]
        exact h3
      · intro q
        unfold queuedCount at h4 ⊢
        rw [← List.countP_eq_length_filter, List.countP_map]
        have hpred : ∀ r ∈ s.rows,
            ((fun r : EventRow => decide (r.path = q ∧ r.status = EventStatus.queued)) ∘
              fun r => if r.id = e.id then
                { r with etype := t, createdAt := now, updatedAt := now } else r) r = true ↔
            decide (r.path = q ∧ r.status = EventStatus.queued) = true := by
          intro r _
          simp only [Function.comp_apply, decide_eq_true_eq]
          rw [(hpt r).1, (hpt r).2.1]
        rw [List.countP_congr hpred, List.countP_eq_length_filter]
        exact h4 q
  | none =>
    dsimp only
    refine ⟨?_, ?_, ?_, ?_⟩
    · intro r' hr'
      rcases List.mem_append.mp hr' with hold | hnew
      · exact h1 r' hold
      · simp only [List.mem_singleton] at hnew
        subst hnew
        simp
    · intro r' hr'
      rcases List.mem_append.mp hr' with hold | hnew
      · exact Nat.lt_succ_of_lt (h2 r' hold)
      · simp only [List.mem_singleton] at hnew
        subst hnew
        simp
    · rw [List.map_append]
      rw [List.nodup_append]
      refine ⟨h3, List.nodup_singleton _, ?_⟩
      intro a ha hb
      simp only [List.map_cons, List.map_nil, List.mem_singleton] at hb
      obtain ⟨r0, hr0, rfl⟩ := List.mem_map.mp ha
      exact absurd hb (Nat.ne_of_lt (h2 r0 hr0))
    · intro q
      unfold queuedCount at h4 ⊢
      simp only [List.filter_append, List.length_append]
      by_cases hq : q = p
      · subst hq
        have hz := latestQueuedFor_none hlq
        rw [hz]
        simp
      · have hone : (List.filter (fun r : EventRow =>
            decide (r.path = q ∧ r.status = EventStatus.queued))
            ([⟨s.nextId, t, p, now, now, EventStatus.queued, 0, none⟩] :
              List EventRow)).length = 0 := by
          simp
          exact fun h => hq (Eq.symm h)
        rw [hone]
        simpa using h4 q

/-- Helper: the queue invariant is preserved by a whole `enqueueEvents`
call. -/
lemma queue_inv_enqueueEvents (now : Nat) (changed deleted : List String) (s : QState)
    (h1 : ∀ r ∈ s.rows, r.status ≠ EventStatus.processing)
    (h2 : ∀ r ∈ s.rows, r.id < s.nextId)
    (h3 : (s.rows.map (fun r => r.id)).Nodup)
    (h4 : ∀ q, queuedCount s q ≤ 1) :
    (∀ r ∈ (enqueueEvents now changed deleted s).rows,
        r.status ≠ EventStatus.processing) ∧
      (∀ r ∈ (enqueueEvents now changed deleted s).rows,
        r.id < (enqueueEvents now changed deleted s).nextId) ∧
      ((enqueueEvents now changed deleted s).rows.map (fun r => r.id)).Nodup ∧
      (∀ q, queuedCount (enqueueEvents now changed deleted s) q ≤ 1) := by
  unfold enqueueEvents
  generalize stableSortBy (fun a b => a ≤ b) (changed ++ deleted).dedup = paths
  induction paths generalizing s with
  | nil => exact ⟨h1, h2, h3, h4⟩
  | cons p rest ih =>
    simp only [List.foldl_cons]
    obtain ⟨g1, g2, g3, g4⟩ :=
      queue_inv_enqueueOne now s p (desiredEventType deleted p) h1 h2 h3 h4
    exact ih _ g1 g2 g3 g4

/-- Helper: a row map that preserves ids preserves distinctness of the id
column. -/
lemma nodup_ids_map (s : List EventRow) (g : EventRow → EventRow)
    (hid : ∀ r, (g r).id = r.id)
    (h3 : (s.map (fun r => r.id)).Nodup) :
    ((s.map g).map (fun r => r.id)).Nodup := by
  rw [List.map_map]
  have hfun : ((fun r : EventRow => r.id) ∘ g) = fun r : EventRow => r.id := funext hid
  rw [hfun]
  exact h3

/-- Helper: the queue invariant is preserved by a run-to-completion drain
step that succeeds. -/
lemma queue_inv_drainOk (s : QState) (e : EventRow) (now now2 : Nat)
    (h1 : ∀ r ∈ s.rows, r.status ≠ EventStatus.processing)
    (h2 : ∀ r ∈ s.rows, r.id < s.nextId)
    (h3 : (s.rows.map (fun r => r.id)).Nodup)
    (h4 : ∀ q, queuedCount s q ≤ 1) :
    (∀ r ∈ (setEventStatus (setEventStatus s e.id .processing now) e.id .done now2).rows,
        r.status ≠ EventStatus.processing) ∧
      (∀ r ∈ (setEventStatus (setEventStatus s e.id .processing now) e.id .done now2).rows,
        r.id < (setEventStatus (setEventStatus s e.id .processing now) e.id .done now2).nextId) ∧
      ((setEventStatus (setEventStatus s e.id .processing now) e.id .done now2).rows.map
        (fun r => r.id)).Nodup ∧
      (∀ q, queuedCount
        (setEventStatus (setEventStatus s e.id .processing now) e.id .done now2) q ≤ 1) := by
  unfold setEventStatus
  refine ⟨?_, ?_, ?_, ?_⟩
  · intro r' hr'
    simp only [List.mem_map] at hr'
    obtain ⟨r1, ⟨r0, hr0, rfl⟩, rfl⟩ := hr'
    by_cases hid : r0.id = e.id
    · simp [hid]
    · simp only [hid, if_false]
      exact h1 r0 hr0
  · intro r' hr'
    simp only [List.mem_map] at hr'
    obtain ⟨r1, ⟨r0, hr0, rfl⟩, rfl⟩ := hr'
    by_cases hid : r0.id = e.id
    · simpa [hid] using h2 r0 hr0
    · simpa [hid] using h2 r0 hr0
  · refine nodup_ids_map _ _ ?_ (nodup_ids_map _ _ ?_ h3)
    · intro r
      by_cases hid : r.id = e.id <;> simp [hid]
    · intro r
      by_cases hid : r.id = e.id <;> simp [hid]
  · intro q
    have h4q := h4 q
    unfold queuedCount at h4q ⊢
    rw [← List.countP_eq_length_filter, List.countP_map, List.countP_map]
    rw [← List.countP_eq_length_filter] at h4q
    refine le_trans (List.countP_mono_left ?_) h4q
    intro r hr hpr
    simp only [Function.comp_apply, decide_eq_true_eq] at hpr ⊢
    by_cases hid : r.id = e.id
    · simp [hid] at hpr
    · simpa [hid] using hpr

/-- Helper: the queue invariant is preserved by a run-to-completion drain
step that fails and re-queues or marks failed. -/
lemma queue_inv_drainErr (s : QState) (e : EventRow) (msg : String) (now now2 : Nat)
    (hsel : selectNextQueued s = some e)
    (h1 : ∀ r ∈ s.rows, r.status ≠ EventStatus.processing)
    (h2 : ∀ r ∈ s.rows, r.id < s.nextId)
    (h3 : (s.rows.map (fun r => r.id)).Nodup)
    (h4 : ∀ q, queuedCount s q ≤ 1) :
    (∀ r ∈ (applyDrainError (setEventStatus s e.id .processing now) e.id msg now2).rows,
        r.status ≠ EventStatus.processing) ∧
      (∀ r ∈ (applyDrainError (setEventStatus s e.id .processing now) e.id msg now2).rows,
        r.id < (applyDrainError (setEventStatus s e.id .processing now) e.id msg now2).nextId) ∧
      ((applyDrainError (setEventStatus s e.id .processing now) e.id msg now2).rows.map
        (fun r => r.id)).Nodup ∧
      (∀ q, queuedCount
        (applyDrainError (setEventStatus s e.id .processing now) e.id msg now2) q ≤ 1) := by
  unfold applyDrainError setEventStatus
  refine ⟨?_, ?_, ?_, ?_⟩
  · intro r' hr'
    simp only [List.mem_map] at hr'
    obtain ⟨r1, ⟨r0, hr0, rfl⟩, rfl⟩ := hr'
    by_cases hid : r0.id = e.id
    · by_cases h5 : 5 ≤ r0.attempts + 1 <;> simp [hid, h5]
    · simp only [hid, if_false]
      exact h1 r0 hr0
  · intro r' hr'
    simp only [List.mem_map] at hr'
    obtain ⟨r1, ⟨r0, hr0, rfl⟩, rfl⟩ := hr'
    by_cases hid : r0.id = e.id
    · simpa [hid] using h2 r0 hr0
    · simpa [hid] using h2 r0 hr0
  · refine nodup_ids_map _ _ ?_ (nodup_ids_map _ _ ?_ h3)
    · intro r
      by_cases hid : r.id = e.id <;> simp [hid]
    · intro r
      by_cases hid : r.id = e.id <;> simp [hid]
  · intro q
    have h4q := h4 q
    unfold queuedCount at h4q ⊢
    rw [← List.countP_eq_length_filter, List.countP_map, List.countP_map]
    rw [← List.countP_eq_length_filter] at h4q
    refine le_trans (List.countP_mono_left ?_) h4q
    intro r hr hpr
    simp only [Function.comp_apply, decide_eq_true_eq] at hpr ⊢
    by_cases hid : r.id = e.id
    · have hre : r = e := by
        refine List.inj_on_of_nodup_map h3 hr (selectNextQueued_spec hsel).1 ?_
        rw [hid]
      simp only [hid, if_true, if_pos rfl] at hpr
      refine ⟨?_, ?_⟩
      · exact hpr.1
      · rw [hre]
        exact (selectNextQueued_spec hsel).2
    · simpa [hid] using hpr

/-- Claim C6, amended.  Under the program's actual single-writer
discipline — enqueues never run while an event is `processing`, because
each drain step takes a selected queued event to its terminal or
re-queued status before control returns — every reachable event table has
at most one non-terminal (queued or processing) row per path; indeed no
row is ever observed in `processing` between steps, and queued rows are
unique per path.  (Under the fully interleaved micro-step semantics the
bound fails; see the counterexample.) -/
theorem queue_nonterminal_unique_sequential :
    ∀ s : QState, QReachSeq s → ∀ p, nonTerminalCount s p ≤ 1 := by
  have main : ∀ s : QState, QReachSeq s →
      (∀ r ∈ s.rows, r.status ≠ EventStatus.processing) ∧
        (∀ r ∈ s.rows, r.id < s.nextId) ∧
        (s.rows.map (fun r => r.id)).Nodup ∧
        (∀ q, queuedCount s q ≤ 1) := by
    intro s h
    unfold QReachSeq at h
    induction h with
    | refl =>
      refine ⟨by simp [initialQ], by simp [initialQ], by simp [initialQ], ?_⟩
      intro q
      simp [initialQ, queuedCount]
    | tail hreach hstep ih =>
      obtain ⟨i1, i2, i3, i4⟩ := ih
      cases hstep with
      | enqueue now changed deleted =>
        exact queue_inv_enqueueEvents now changed deleted _ i1 i2 i3 i4
      | drainOk e now now2 hsel =>
        exact queue_inv_drainOk _ e now now2 i1 i2 i3 i4
      | drainErr e msg now now2 hsel =>
        exact queue_inv_drainErr _ e msg now now2 hsel i1 i2 i3 i4
  intro s h p
  obtain ⟨i1, _, _, i4⟩ := main s h
  have hq := i4 p
  unfold nonTerminalCount
  unfold queuedCount at hq
  rw [← List.countP_eq_length_filter] at hq ⊢
  have hcongr : ∀ r ∈ s.rows,
      decide (r.path = p ∧ (r.status = EventStatus.queued ∨
        r.status = EventStatus.processing)) = true ↔
      decide (r.path = p ∧ r.status = EventStatus.queued) = true := by
    intro r hr
    have := i1 r hr
    simp only [decide_eq_true_eq]
    constructor
    · rintro ⟨hp, hst | hst⟩
      · exact ⟨hp, hst⟩
      · exact absurd hst this
    · rintro ⟨hp, hst⟩
      exact ⟨hp, Or.inl hst⟩
  rw [List.countP_congr hcongr]
  exact hq

/-- Claim C6 witness: the sequential invariant applied to the concrete
state reached by one enqueue of path `"a"`. -/
theorem queue_nonterminal_unique_sequential_witness :
    QReachSeq (enqueueEvents 0 ["a"] [] initialQ) ∧
      nonTerminalCount (enqueueEvents 0 ["a"] [] initialQ) "a" ≤ 1 :=
  ⟨Relation.ReflTransGen.single (QStepSeq.enqueue initialQ 0 ["a"] []),
   queue_nonterminal_unique_sequential (enqueueEvents 0 ["a"] [] initialQ)
     (Relation.ReflTransGen.single (QStepSeq.enqueue initialQ 0 ["a"] [])) "a"⟩

/-- Helper: `_fetch_cache` touches only the query cache. -/
lemma fetchCache_corpus (st : Store) (h now : String) :
    corpusEq ((fetchCache st h now).2) st := by
  unfold fetchCache
  cases st.queryCache.find? (fun c => c.queryHash = h) <;>
    exact ⟨rfl, rfl, rfl, rfl, rfl⟩

/-- Helper: `_store_cache` touches only the query cache. -/
lemma storeCache_corpus (st : Store) (h txt : String) (ids : List Nat) (now : String) :
    corpusEq (storeCache st h txt ids now) st := by
  unfold storeCache
  split_ifs <;> exact ⟨rfl, rfl, rfl, rfl, rfl⟩

/-- Helper: `corpusEq` is transitive. -/
lemma corpusEq_trans {a b c : Store} (h1 : corpusEq a b) (h2 : corpusEq b c) :
    corpusEq a c := by
  obtain ⟨x1, x2, x3, x4, x5⟩ := h1
  obtain ⟨y1, y2, y3, y4, y5⟩ := h2
  exact ⟨x1.trans y1, x2.trans y2, x3.trans y3, x4.trans y4, x5.trans y5⟩

/-- Helper: the per-document score only reads corpus tables. -/
lemma scoreDocument_congr {st' st : Store} (h : corpusEq st' st) (year : Nat)
    (qt : Finset String) (qv : List ℚ) (d : DocRow) :
    scoreDocument st' year qt qv d = scoreDocument st year qt qv d := by
  obtain ⟨_, h2, h3, h4, h5⟩ := h
  unfold scoreDocument
  rw [h2, h3, h4, h5]

/-- Helper: the scored list only reads corpus tables. -/
lemma scoredList_congr {st' st : Store} (h : corpusEq st' st) (year : Nat)
    (qt : Finset String) (qv : List ℚ) :
    scoredList st' year qt qv = scoredList st year qt qv := by
  unfold scoredList
  rw [h.1]
  refine List.filterMap_congr ?_
  intro d _
  rw [scoreDocument_congr h]

/-- Helper: the ranked top rows only read corpus tables. -/
lemma topRows_congr {st' st : Store} (h : corpusEq st' st) (year : Nat)
    (qt : Finset String) (qv : List ℚ) (limit : Int) :
    topRows st' year qt qv limit = topRows st year qt qv limit := by
  unfold topRows rankedList
  rw [scoredList_congr h]

/-- Helper: lexical search only reads the documents table. -/
lemma searchDocuments_congr {st' st : Store} (h : corpusEq st' st)
    (q : String) (limit : Int) :
    searchDocuments st' q limit = searchDocuments st q limit := by
  unfold searchDocuments
  rw [h.1]

/-- Helper: cache-hit row assembly only reads the documents table. -/
lemma cachedHitRows_congr {st' st : Store} (h : corpusEq st' st) (ids : List Nat) :
    cachedHitRows st' ids = cachedHitRows st ids := by
  unfold cachedHitRows
  rw [h.1]

/-- Helper: after `_store_cache`, fetching the same hash returns exactly the
stored id list. -/
lemma fetchCache_after_storeCache (st : Store) (h txt : String) (ids : List Nat)
    (now now2 : String) :
    (fetchCache (storeCache st h txt ids now) h now2).1 = some ids := by
  unfold storeCache
  by_cases hex : st.queryCache.any (fun c => c.queryHash = h)
  · rw [if_pos hex]
    have hfind : ∀ l : List CacheRow, l.any (fun c => c.queryHash = h) = true →
        ∃ r, (l.map (fun c => if c.queryHash = h then
            { c with queryText := txt, resultIds := ids, createdAt := now, lastAccessed := now }
            else c)).find? (fun c => c.queryHash = h) = some r ∧
          r.resultIds = ids := by
      intro l
      induction l with
      | nil => intro hx; exact absurd hx (by simp)
      | cons c rest ih =>
        intro hx
        by_cases hc : c.queryHash = h
        · refine ⟨{ c with queryText := txt, resultIds := ids, createdAt := now, lastAccessed := now },
            ?_, rfl⟩
          simp only [List.map_cons, if_pos hc]
          exact List.find?_cons_of_pos _ (by simpa using hc)
        · have hx2 : rest.any (fun c => c.queryHash = h) = true := by
            rcases List.any_eq_true.mp hx with ⟨x, hx1, hpx⟩
            rcases List.mem_cons.mp hx1 with rfl | hmem
            · exact absurd (of_decide_eq_true hpx) hc
            · exact List.any_eq_true.mpr ⟨x, hmem, hpx⟩
          obtain ⟨r, hr1, hr2⟩ := ih hx2
          refine ⟨r, ?_, hr2⟩
          simp only [List.map_cons, if_neg hc]
          rw [List.find?_cons_of_neg _ (by simpa using hc)]
          exact hr1
    obtain ⟨r, hr1, hr2⟩ := hfind st.queryCache hex
    unfold fetchCache
    simp only [hr1]
    rw [hr2]
  · rw [if_neg hex]
    unfold fetchCache
    have hnone : st.queryCache.find? (fun c => c.queryHash = h) = none := by
      rw [List.find?_eq_none]
      intro x hx hpx
      exact hex (List.any_eq_true.mpr ⟨x, hx, hpx⟩)
    simp only [List.find?_append, hnone, Option.none_or]
    rw [List.find?_cons_of_pos _ (by simp)]

/-- Helper: the hit-count bump performed by `_fetch_cache` does not change
what a subsequent fetch of the same hash returns. -/
lemma fetchCache_after_bump (st : Store) (h now now2 : String) :
    (fetchCache ((fetchCache st h now).2) h now2).1 = (fetchCache st h now).1 := by
  unfold fetchCache
  cases hf : st.queryCache.find? (fun c => c.queryHash = h) with
  | none => simp [hf]
  | some r =>
    simp only [hf]
    have hcomp : ((fun c : CacheRow => decide (c.queryHash = h)) ∘
        (fun c : CacheRow => if c.id = r.id then
          { c with hitCount := c.hitCount + 1, lastAccessed := now } else c)) =
        fun c : CacheRow => decide (c.queryHash = h) := by
      funext c
      by_cases hc : c.id = r.id <;> simp [hc]
    rw [List.find?_map, hcomp, hf]
    simp

/-- Helper: membership in a stable insert. -/
lemma mem_stInsert {α : Type} {ge : α → α → Bool} {x z : α} :
    ∀ l : List α, z ∈ stInsert ge x l ↔ z = x ∨ z ∈ l := by
  intro l
  induction l with
  | nil => simp [stInsert]
  | cons y ys ih =>
    unfold stInsert
    by_cases hg : ge x y
    · simp [hg]
    · simp only [hg, Bool.false_eq_true, if_false, List.mem_cons, ih]
      tauto

/-- Helper: the stable sort is membership-preserving. -/
lemma mem_stableSortBy {α : Type} {ge : α → α → Bool} {z : α} :
    ∀ l : List α, z ∈ stableSortBy ge l ↔ z ∈ l := by
  intro l
  induction l with
  | nil => simp [stableSortBy]
  | cons y ys ih =>
    unfold stableSortBy
    rw [mem_stInsert, ih]
    simp

/-- Helper: every ranked top row is a documents-table row. -/
lemma topRows_mem {st : Store} {year : Nat} {qt : Finset String} {qv : List ℚ}
    {limit : Int} {d : DocRow} (h : d ∈ topRows st year qt qv limit) :
    d ∈ st.documents := by
  unfold topRows rankedList at h
  obtain ⟨p, hp, rfl⟩ := List.mem_map.mp h
  have hp2 := List.mem_of_mem_take hp
  rw [mem_stableSortBy] at hp2
  unfold scoredList at hp2
  obtain ⟨d0, hd0, hsome⟩ := List.mem_filterMap.mp hp2
  by_cases hs : 0 < scoreDocument st year qt qv d0
  · rw [if_pos hs] at hsome
    cases hsome
    exact hd0
  · rw [if_neg hs] at hsome
    cases hsome

/-- Helper: membership through a SQL `LIMIT`. -/
lemma mem_sqlLimit {α : Type} {n : Int} {l : List α} {x : α}
    (h : x ∈ sqlLimit n l) : x ∈ l := by
  unfold sqlLimit at h
  split_ifs at h
  · exact h
  · exact List.mem_of_mem_take h

/-- Helper: every lexical fallback record carries the id of a
documents-table row. -/
lemma searchDocuments_mem {st : Store} {q : String} {limit : Int}
    {rec : DocumentRecord} (h : rec ∈ searchDocuments st q limit) :
    ∃ d ∈ st.documents, d.id = rec.id := by
  unfold searchDocuments at h
  obtain ⟨d, hd, rfl⟩ := List.mem_map.mp h
  have hd2 := mem_sqlLimit hd
  rw [mem_stableSortBy] at hd2
  exact ⟨d, (List.mem_filter.mp hd2).1, rfl⟩

/-- Helper: `lookupLastById` only returns rows of its list carrying the
requested id. -/
lemma lookupLastById_sound {rows : List DocRow} {i : Nat} {r : DocRow} :
    lookupLastById rows i = some r → r ∈ rows ∧ r.id = i := by
  unfold lookupLastById
  suffices hgen : ∀ (l : List DocRow) (acc : Option DocRow),
      l.foldl (fun acc r => if r.id = i then some r else acc) acc = some r →
      (r ∈ l ∧ r.id = i) ∨ acc = some r by
    intro h
    rcases hgen rows none h with hok | hacc
    · exact hok
    · exact absurd hacc (by simp)
  intro l
  induction l with
  | nil => exact fun acc h => Or.inr h
  | cons d rest ih =>
    intro acc h
    rcases ih _ h with ⟨hmem, hid⟩ | hacc
    · exact Or.inl ⟨List.mem_cons_of_mem _ hmem, hid⟩
    · dsimp only at hacc
      by_cases hd : d.id = i
      · rw [if_pos hd] at hacc
        cases hacc
        exact Or.inl ⟨List.mem_cons_self _ _, hd⟩
      · rw [if_neg hd] at hacc
        exact Or.inr hacc

/-- Helper: `lookupLastById` finds a row when one with the id exists. -/
lemma lookupLastById_isSome {rows : List DocRow} {i : Nat}
    (h : ∃ r ∈ rows, r.id = i) : (lookupLastById rows i).isSome := by
  unfold lookupLastById
  suffices hgen : ∀ (l : List DocRow) (acc : Option DocRow),
      (∃ r ∈ l, r.id = i) ∨ acc.isSome →
      (l.foldl (fun acc r => if r.id = i then some r else acc) acc).isSome by
    exact hgen rows none (Or.inl h)
  intro l
  induction l with
  | nil =>
    intro acc hcase
    rcases hcase with ⟨r, hr, _⟩ | hacc
    · cases hr
    · simpa using hacc
  | cons d rest ih =>
    intro acc hcase
    simp only [List.foldl_cons]
    refine ih _ ?_
    rcases hcase with ⟨r, hr, hid⟩ | hacc
    · rcases List.mem_cons.mp hr with heq | hmem
      · refine Or.inr ?_
        subst heq
        rw [if_pos hid]
        rfl
      · exact Or.inl ⟨r, hmem, hid⟩
    · refine Or.inr ?_
      by_cases hd : d.id = i
      · rw [if_pos hd]
        rfl
      · rw [if_neg hd]
        exact hacc

/-- Helper: when no row carries the id, the lookup fold keeps its
accumulator. -/
lemma lookupLast_foldl_const {i : Nat} :
    ∀ (l : List DocRow) (acc : Option DocRow), (∀ r ∈ l, r.id ≠ i) →
      l.foldl (fun acc r => if r.id = i then some r else acc) acc = acc := by
  intro l
  induction l with
  | nil => intro acc _; rfl
  | cons d rest ih =>
    intro acc hne
    simp only [List.foldl_cons, if_neg (hne d (List.mem_cons_self _ _))]
    exact ih acc (fun r hr => hne r (List.mem_cons_of_mem _ hr))

/-- Helper: over rows with distinct ids, the Python-dict lookup (last
match wins) agrees with `find?` (first match). -/
lemma lookupLastById_eq_find {i : Nat} :
    ∀ l : List DocRow, (l.map (fun d => d.id)).Nodup →
      lookupLastById l i = l.find? (fun d => d.id = i) := by
  intro l
  induction l with
  | nil => intro _; rfl
  | cons d rest ih =>
    intro hnd
    simp only [List.map_cons, List.nodup_cons] at hnd
    unfold lookupLastById
    simp only [List.foldl_cons]
    by_cases hd : d.id = i
    · rw [if_pos hd, List.find?_cons_of_pos _ (by simpa using hd)]
      refine lookupLast_foldl_const rest (some d) ?_
      intro r hr hri
      exact hnd.1 (List.mem_map.mpr ⟨r, hr, by rw [hri, hd]⟩)
    · rw [if_neg hd, List.find?_cons_of_neg _ (by simpa using hd)]
      exact ih hnd.2

/-- Helper: filtering by a weaker predicate does not change `find?` for a
stronger one. -/
lemma filter_find?_eq {α : Type} (p q : α → Bool) (himp : ∀ x, p x = true → q x = true) :
    ∀ l : List α, (l.filter q).find? p = l.find? p := by
  intro l
  induction l with
  | nil => rfl
  | cons x rest ih =>
    by_cases hq : q x
    · rw [List.filter_cons_of_pos hq]
      by_cases hp : p x
      · rw [List.find?_cons_of_pos _ hp, List.find?_cons_of_pos _ hp]
      · rw [List.find?_cons_of_neg _ (by simpa using hp),
          List.find?_cons_of_neg _ (by simpa using hp)]
        exact ih
    · have hp : ¬ p x = true := fun hpx => hq (himp x hpx)
      rw [List.filter_cons_of_neg (by simpa using hq), List.find?_cons_of_neg _ hp]
      exact ih

/-- Helper: with distinct document ids, the cache-hit assembly is exactly
the cached ids resolved through `find?` on the documents table, in cached
order, dropping ids without a row. -/
lemma cachedHitRows_eq_find (st : Store) (ids : List Nat)
    (hnd : (st.documents.map (fun d => d.id)).Nodup) :
    cachedHitRows st ids =
      ids.filterMap (fun i => st.documents.find? (fun d => d.id = i)) := by
  unfold cachedHitRows
  refine List.filterMap_congr ?_
  intro i hi
  have hsub : ((st.documents.filter (fun d => d.id ∈ ids)).map (fun d => d.id)).Nodup :=
    List.Nodup.sublist ((List.filter_sublist _).map _) hnd
  rw [lookupLastById_eq_find _ hsub]
  refine filter_find?_eq _ _ ?_ st.documents
  intro d hpd
  have : d.id = i := by simpa using hpd
  simpa [this] using hi

/-- Helper: when every cached id has a document row, the assembled hit
list carries exactly the cached ids in order. -/
lemma cachedHitRows_ids (st : Store) (ids : List Nat)
    (hall : ∀ i ∈ ids, ∃ d ∈ st.documents, d.id = i) :
    (cachedHitRows st ids).map (fun d => d.id) = ids := by
  unfold cachedHitRows
  have hgen : ∀ (ids2 : List Nat),
      (∀ i ∈ ids2, ∃ r ∈ st.documents.filter (fun d => d.id ∈ ids), r.id = i) →
      ((ids2.filterMap (fun i =>
        lookupLastById (st.documents.filter (fun d => d.id ∈ ids)) i)).map
        (fun d => d.id)) = ids2 := by
    intro ids2
    induction ids2 with
    | nil => intro _; rfl
    | cons i rest ih =>
      intro hall2
      have hsome := lookupLastById_isSome (hall2 i (List.mem_cons_self _ _))
      obtain ⟨r, hr⟩ := Option.isSome_iff_exists.mp hsome
      rw [List.filterMap_cons, hr]
      simp only [List.map_cons]
      rw [(lookupLastById_sound hr).2,
        ih (fun j hj => hall2 j (List.mem_cons_of_mem _ hj))]
  refine hgen ids ?_
  intro i hi
  obtain ⟨d, hd, hdi⟩ := hall i hi
  refine ⟨d, List.mem_filter.mpr ⟨hd, ?_⟩, hdi⟩
  simpa [hdi] using hi

/-- Claim C10.  On a cache hit with a non-empty cached id list, the
returned list is exactly the cached ids resolved against the documents
table in cached order, silently omitting ids whose document no longer
exists; a cache entry whose stored id list is empty is falsy and triggers
the full rescore (top ranking, else lexical fallback). -/
theorem cache_hit_assembly :
    (∀ (provider : Provider) (year : Nat) (now : String) (st : Store)
        (q : String) (k : Int) (ids : List Nat),
        cleanedQuery q ≠ "" →
        (fetchCache st (semanticQueryHash (cleanedQuery q) k) now).1 = some ids →
        ids ≠ [] →
        (st.documents.map (fun d => d.id)).Nodup →
        (semanticSearch provider year now st q k).1 =
          (ids.filterMap (fun i => st.documents.find? (fun d => d.id = i))).map toRecord) ∧
      (∀ (provider : Provider) (year : Nat) (now : String) (st : Store)
        (q : String) (k : Int),
        cleanedQuery q ≠ "" →
        (fetchCache st (semanticQueryHash (cleanedQuery q) k) now).1 = some [] →
        (semanticSearch provider year now st q k).1 =
          (if (topRows st year (tokenizeSet (cleanedQuery q))
              (provider (cleanedQuery q)).1 k).isEmpty = true
            then searchDocuments st q k
            else (topRows st year (tokenizeSet (cleanedQuery q))
              (provider (cleanedQuery q)).1 k).map toRecord)) := by
  constructor
  · intro provider year now st q k ids hcl hfetch hids hnd
    simp only [cleanedQuery] at hcl
    simp only [semanticQueryHash, cleanedQuery] at hfetch
    unfold semanticSearch
    dsimp only
    rw [if_neg hcl, hfetch]
    have htr : truthyIds (some ids) = true := by
      simpa [truthyIds] using hids
    rw [if_pos htr]
    simp only [Option.getD_some]
    rw [cachedHitRows_congr (fetchCache_corpus st _ now),
      cachedHitRows_eq_find st ids hnd]
  · intro provider year now st q k hcl hfetch
    simp only [cleanedQuery] at hcl
    simp only [semanticQueryHash, cleanedQuery] at hfetch ⊢
    unfold semanticSearch
    dsimp only
    rw [if_neg hcl, hfetch]
    have htr : truthyIds (some ([] : List Nat)) = false := by
      simp [truthyIds]
    rw [htr]
    simp only [Bool.false_eq_true, if_false]
    rw [topRows_congr (fetchCache_corpus st _ now),
      searchDocuments_congr (fetchCache_corpus st _ now)]
    by_cases hc : (topRows st year (tokenizeSet (pyLower (pyStrip q)))
        (provider (pyLower (pyStrip q))).1 k).isEmpty = true
    · rw [if_pos hc, if_pos hc]
    · rw [if_neg hc, if_neg hc]

theorem cache_hit_assembly_witness :
    cleanedQuery "kube" ≠ "" ∧
    (semanticSearch (fun _ => ([], "m")) 2025 "t1"
        ⟨[⟨1, "/a.md", "", "", none, "", "h", 1, "u", "u"⟩], [], [], [], [], [], [], [], [],
          [⟨1, semanticQueryHash (cleanedQuery "kube") 5, "kube", [1, 2], "t0", 0, "t0"⟩],
          2, 1, 2⟩ "kube" 5).1 =
      [toRecord ⟨1, "/a.md", "", "", none, "", "h", 1, "u", "u"⟩] ∧
    (semanticSearch (fun _ => ([], "m")) 2025 "t1"
        ⟨[], [], [], [], [], [], [], [], [],
          [⟨1, semanticQueryHash (cleanedQuery "kube") 5, "kube", [], "t0", 0, "t0"⟩],
          2, 1, 2⟩ "kube" 5).1 =
      searchDocuments
        ⟨[], [], [], [], [], [], [], [], [],
          [⟨1, semanticQueryHash (cleanedQuery "kube") 5, "kube", [], "t0", 0, "t0"⟩],
          2, 1, 2⟩ "kube" 5 := by
  refine ⟨by decide, ?_, ?_⟩
  · have h := cache_hit_assembly.1 (fun _ => ([], "m")) 2025 "t1"
      ⟨[⟨1, "/a.md", "", "", none, "", "h", 1, "u", "u"⟩], [], [], [], [], [], [], [], [],
        [⟨1, semanticQueryHash (cleanedQuery "kube") 5, "kube", [1, 2], "t0", 0, "t0"⟩],
        2, 1, 2⟩ "kube" 5 [1, 2]
      (by decide) (by simp [fetchCache]) (by decide) (by decide)
    rw [h]
    rfl
  · have h := cache_hit_assembly.2 (fun _ => ([], "m")) 2025 "t1"
      ⟨[], [], [], [], [], [], [], [], [],
        [⟨1, semanticQueryHash (cleanedQuery "kube") 5, "kube", [], "t0", 0, "t0"⟩],
        2, 1, 2⟩ "kube" 5
      (by decide) (by simp [fetchCache])
    rw [h]
    rfl


/-- Helper: a stable insert preserves sortedness with the stability
tie-break, provided the boolean comparison is total and transitive. -/
lemma pairwise_stInsert {α : Type} (ge : α → α → Bool) (P : α → α → Prop)
    (htot : ∀ a b, ge a b = true ∨ ge b a = true)
    (htr : ∀ a b c, ge a b = true → ge b c = true → ge a c = true)
    (x : α) :
    ∀ l : List α,
      l.Pairwise (fun a b => ge a b = true ∧ (ge b a = false ∨ P a b)) →
      (∀ y ∈ l, P x y) →
      (stInsert ge x l).Pairwise (fun a b => ge a b = true ∧ (ge b a = false ∨ P a b)) := by
  intro l
  induction l with
  | nil => intro _ _; simp [stInsert]
  | cons y ys ih =>
    intro hl hx
    unfold stInsert
    by_cases hg : ge x y = true
    · rw [if_pos hg]
      refine List.Pairwise.cons ?_ hl
      intro z hz
      rcases List.mem_cons.mp hz with rfl | hmem
      · exact ⟨hg, Or.inr (hx z (List.mem_cons_self _ _))⟩
      · have hyz := ((List.pairwise_cons.mp hl).1 z hmem).1
        exact ⟨htr x y z hg hyz, Or.inr (hx z (List.mem_cons_of_mem _ hmem))⟩
    · rw [if_neg hg]
      have hgf : ge x y = false := by simpa using hg
      have hyx : ge y x = true := (htot x y).resolve_left hg
      obtain ⟨hhead, htail⟩ := List.pairwise_cons.mp hl
      refine List.Pairwise.cons ?_ (ih htail (fun z hz => hx z (List.mem_cons_of_mem _ hz)))
      intro z hz
      rcases (mem_stInsert ys).mp hz with rfl | hmem
      · exact ⟨hyx, Or.inl hgf⟩
      · exact hhead z hmem

/-- Helper: the stable sort of an input that is pairwise `P` is pairwise
sorted by the comparison, ties resolved by the input order `P`. -/
lemma pairwise_stableSortBy {α : Type} (ge : α → α → Bool) (P : α → α → Prop)
    (htot : ∀ a b, ge a b = true ∨ ge b a = true)
    (htr : ∀ a b c, ge a b = true → ge b c = true → ge a c = true) :
    ∀ l : List α, l.Pairwise P →
      (stableSortBy ge l).Pairwise
        (fun a b => ge a b = true ∧ (ge b a = false ∨ P a b)) := by
  intro l
  induction l with
  | nil => intro _; simp [stableSortBy]
  | cons x xs ih =>
    intro hl
    obtain ⟨hhead, htail⟩ := List.pairwise_cons.mp hl
    unfold stableSortBy
    exact pairwise_stInsert ge P htot htr x _ (ih htail)
      (fun y hy => hhead y ((mem_stableSortBy xs).mp hy))

/-- Helper: the `(score, updated_at)` ranking comparison is total. -/
lemma rankKeyGE_total : ∀ a b : ℚ × DocRow,
    rankKeyGE a b = true ∨ rankKeyGE b a = true := by
  intro a b
  simp only [rankKeyGE, Bool.or_eq_true, Bool.and_eq_true, decide_eq_true_eq]
  rcases lt_trichotomy a.1 b.1 with h | h | h
  · exact Or.inr (Or.inl h)
  · rcases le_total b.2.updatedAt a.2.updatedAt with hu | hu
    · exact Or.inl (Or.inr ⟨h, hu⟩)
    · exact Or.inr (Or.inr ⟨h.symm, hu⟩)
  · exact Or.inl (Or.inl h)

/-- Helper: the `(score, updated_at)` ranking comparison is transitive. -/
lemma rankKeyGE_trans : ∀ a b c : ℚ × DocRow,
    rankKeyGE a b = true → rankKeyGE b c = true → rankKeyGE a c = true := by
  intro a b c hab hbc
  simp only [rankKeyGE, Bool.or_eq_true, Bool.and_eq_true, decide_eq_true_eq] at *
  rcases hab with h1 | ⟨h1, h2⟩ <;> rcases hbc with h3 | ⟨h3, h4⟩
  · exact Or.inl (h3.trans h1)
  · exact Or.inl (by rw [← h3]; exact h1)
  · exact Or.inl (by rw [h1]; exact h3)
  · exact Or.inr ⟨h1.trans h3, h4.trans h2⟩

/-- Helper: a pair that ranks at least as high and either ranks strictly
higher or has the smaller id is strictly earlier in the spec order. -/
lemma rankKeyGE_strict_cases {a b : ℚ × DocRow}
    (h1 : rankKeyGE a b = true) (h : rankKeyGE b a = false ∨ a.2.id < b.2.id) :
    rankLT a b := by
  simp only [rankKeyGE, Bool.or_eq_true, Bool.and_eq_true, decide_eq_true_eq] at h1
  rcases h1 with hlt | ⟨heq, hle⟩
  · exact Or.inl hlt
  · rcases h with hfalse | hid
    · simp only [rankKeyGE, Bool.or_eq_false_iff, Bool.and_eq_false_iff,
        decide_eq_false_iff_not] at hfalse
      have hns : ¬ a.2.updatedAt ≤ b.2.updatedAt := by
        rcases hfalse.2 with hc | hc
        · exact absurd heq.symm hc
        · exact hc
      exact Or.inr (Or.inl ⟨heq, lt_of_not_le hns⟩)
    · rcases lt_or_eq_of_le hle with hu | hu
      · exact Or.inr (Or.inl ⟨heq, hu⟩)
      · exact Or.inr (Or.inr ⟨heq, hu.symm, hid⟩)

/-- Helper: when the documents table is scanned in ascending id order,
the scored rows of the cache-miss scan keep that order. -/
lemma scoredList_pairwise_id (st : Store) (year : Nat) (qt : Finset String)
    (qv : List ℚ) (h : st.documents.Pairwise fun a b => a.id < b.id) :
    (scoredList st year qt qv).Pairwise fun a b => a.2.id < b.2.id := by
  unfold scoredList
  rw [List.pairwise_filterMap]
  refine List.Pairwise.imp_of_mem ?_ h
  intro a b _ _ hab x hx y hy
  dsimp only at hx hy
  split_ifs at hx hy
  · simp only [Option.mem_def, Option.some.injEq] at hx hy
    rw [← hx, ← hy]
    exact hab
  · exact absurd (Option.mem_def.mp hy) (by simp)
  · exact absurd (Option.mem_def.mp hx) (by simp)
  · exact absurd (Option.mem_def.mp hx) (by simp)

/-- Claim C2.  On a cache miss with a non-empty cleaned query, over a
documents table scanned in ascending id order (SQLite rowid order), the
ranked scored rows are strictly ordered by score descending, then
`updated_at` descending, then id ascending (`rankLT`), and the returned
list is the `toRecord` image of the first `max 1 limit` ranked rows; the
id tie-break comes from the stability of Python's sort, not from an
explicit key. -/
theorem semantic_search_miss_ranking :
    ∀ (provider : Provider) (year : Nat) (now : String) (st : Store) (q : String) (k : Int),
    cleanedQuery q ≠ "" →
    (fetchCache st (semanticQueryHash (cleanedQuery q) k) now).1 = none →
    st.documents.Pairwise (fun a b => a.id < b.id) →
    (topRows st year (tokenizeSet (cleanedQuery q)) (provider (cleanedQuery q)).1 k).isEmpty = false →
    (rankedList st year (tokenizeSet (cleanedQuery q)) (provider (cleanedQuery q)).1).Pairwise rankLT ∧
    (semanticSearch provider year now st q k).1 =
      ((rankedList st year (tokenizeSet (cleanedQuery q)) (provider (cleanedQuery q)).1).take
        (max 1 k).toNat).map (fun p => toRecord p.2) := by
  intro provider year now st q k hcl hfetch hpw htop
  constructor
  · have hsl := scoredList_pairwise_id st year (tokenizeSet (cleanedQuery q))
      (provider (cleanedQuery q)).1 hpw
    have hps := pairwise_stableSortBy rankKeyGE (fun a b => a.2.id < b.2.id)
      rankKeyGE_total rankKeyGE_trans _ hsl
    unfold rankedList
    exact hps.imp (fun hab => rankKeyGE_strict_cases hab.1 hab.2)
  · simp only [cleanedQuery] at hcl
    simp only [semanticQueryHash, cleanedQuery] at hfetch
    simp only [cleanedQuery] at htop ⊢
    unfold semanticSearch
    dsimp only
    rw [if_neg hcl, hfetch]
    have htrf : truthyIds none = false := by simp [truthyIds]
    rw [htrf]
    simp only [Bool.false_eq_true, if_false]
    rw [topRows_congr (fetchCache_corpus st _ now)]
    rw [htop]
    simp only [Bool.false_eq_true, if_false]
    unfold topRows
    rw [List.map_map]
    rfl

/-- Claim C2 witness: the ranking theorem applied to a one-document store
whose document scores `1/5` on the query `"kube"`. -/
theorem semantic_search_miss_ranking_witness :
    cleanedQuery "kube" ≠ "" ∧
    (fetchCache
        ⟨[⟨1, "/d.md", "kube", "", none, "", "h", 1, "x", "x"⟩],
          [], [], [], [], [], [], [], [], [], 2, 1, 1⟩
        (semanticQueryHash (cleanedQuery "kube") 5) "t0").1 = none ∧
    (rankedList
        ⟨[⟨1, "/d.md", "kube", "", none, "", "h", 1, "x", "x"⟩],
          [], [], [], [], [], [], [], [], [], 2, 1, 1⟩
        2025 (tokenizeSet (cleanedQuery "kube")) []).Pairwise rankLT ∧
    (semanticSearch (fun _ => ([], "m")) 2025 "t0"
        ⟨[⟨1, "/d.md", "kube", "", none, "", "h", 1, "x", "x"⟩],
          [], [], [], [], [], [], [], [], [], 2, 1, 1⟩ "kube" 5).1 =
      ((rankedList
          ⟨[⟨1, "/d.md", "kube", "", none, "", "h", 1, "x", "x"⟩],
            [], [], [], [], [], [], [], [], [], 2, 1, 1⟩
          2025 (tokenizeSet (cleanedQuery "kube")) []).take (max 1 (5 : Int)).toNat).map
        (fun p => toRecord p.2) := by
  have hq : cleanedQuery "kube" = "kube" := by decide
  have h1 : (tokenizeSet "kube" ∩
      tokenizeSet (joinSpace ["/d.md", "kube", "", ""])).card = 1 := by decide
  have h2 : (tokenizeSet "kube").card = 1 := by decide
  have h3 : leadsList (toString 2025).data ['x'] = false := by decide
  have h4 : (tokenizeSet "kube" ∩
      tokenizeSet (joinSpace ["/d.md", "kube", "", ""])).Nonempty := by
    rw [← Finset.card_pos, h1]; norm_num
  have hscore : scoreDocument
      ⟨[⟨1, "/d.md", "kube", "", none, "", "h", 1, "x", "x"⟩],
        [], [], [], [], [], [], [], [], [], 2, 1, 1⟩
      2025 (tokenizeSet "kube") []
      ⟨1, "/d.md", "kube", "", none, "", "h", 1, "x", "x"⟩ = 1 / 5 := by
    simp [scoreDocument, cosineSimilarity, pyStartsWith, h3, h4, h1, h2]
    norm_num
  have hsl : scoredList
      ⟨[⟨1, "/d.md", "kube", "", none, "", "h", 1, "x", "x"⟩],
        [], [], [], [], [], [], [], [], [], 2, 1, 1⟩
      2025 (tokenizeSet "kube") [] =
      [((1 : ℚ) / 5, ⟨1, "/d.md", "kube", "", none, "", "h", 1, "x", "x"⟩)] := by
    unfold scoredList
    simp only [List.filterMap_cons, List.filterMap_nil]
    rw [hscore]
    rw [if_pos (by norm_num : (0 : ℚ) < 1 / 5)]
  have htop : (topRows
      ⟨[⟨1, "/d.md", "kube", "", none, "", "h", 1, "x", "x"⟩],
        [], [], [], [], [], [], [], [], [], 2, 1, 1⟩
      2025 (tokenizeSet "kube") [] 5).isEmpty = false := by
    unfold topRows rankedList
    rw [hsl]
    decide
  have hmain := semantic_search_miss_ranking (fun _ => (([], "m") : List ℚ × String))
    2025 "t0"
    ⟨[⟨1, "/d.md", "kube", "", none, "", "h", 1, "x", "x"⟩],
      [], [], [], [], [], [], [], [], [], 2, 1, 1⟩ "kube" 5
    (by decide) (by simp [fetchCache]) (by simp) (by rw [hq]; exact htop)
  exact ⟨by decide, by simp [fetchCache], hmain.1, hmain.2⟩


/-- Claim C7.  Two consecutive calls to `semantic_search_documents` with
the same query and limit and no intervening write return identical
ordered id lists: a first-call cache hit is bumped but re-read unchanged,
a first-call miss stores its result ids, which the second call fetches
and resolves to rows carrying exactly those ids (an empty stored list is
falsy, and the second call recomputes the same empty fallback). -/
theorem semantic_search_idempotent_ids (provider : Provider) (year : Nat)
    (now now2 : String) (st : Store) (q : String) (k : Int) :
    ((semanticSearch provider year now2
        (semanticSearch provider year now st q k).2 q k).1).map (fun r => r.id) =
      ((semanticSearch provider year now st q k).1).map (fun r => r.id) := by
  set c := pyLower (pyStrip q) with hc
  set HH := sha256Hex ("semantic:" ++ c ++ ":" ++ toString k) with hHH
  by_cases hcl : c = ""
  · have hfst : semanticSearch provider year now st q k = ([], st) := by
      unfold semanticSearch
      dsimp only
      rw [← hc, if_pos hcl]
    have hsnd : semanticSearch provider year now2 st q k = ([], st) := by
      unfold semanticSearch
      dsimp only
      rw [← hc, if_pos hcl]
    rw [hfst]
    dsimp only
    rw [hsnd]
  · set st1 := (fetchCache st HH now).2 with hst1
    set qt := tokenizeSet c with hqt
    set qv := (provider c).1 with hqv
    by_cases htr : truthyIds (fetchCache st HH now).1 = true
    · -- cache hit on the first call: the bump changes nothing observable
      have hb := fetchCache_after_bump st HH now now2
      have htr2 : truthyIds (fetchCache st1 HH now2).1 = true := by
        rw [hst1, hb]
        exact htr
      have hfst : semanticSearch provider year now st q k =
          ((cachedHitRows st1 ((fetchCache st HH now).1.getD [])).map toRecord, st1) := by
        unfold semanticSearch
        dsimp only
        rw [← hc, if_neg hcl, ← hHH, ← hst1, if_pos htr]
      have hsnd : semanticSearch provider year now2 st1 q k =
          ((cachedHitRows (fetchCache st1 HH now2).2
              ((fetchCache st1 HH now2).1.getD [])).map toRecord,
            (fetchCache st1 HH now2).2) := by
        unfold semanticSearch
        dsimp only
        rw [← hc, if_neg hcl, ← hHH, if_pos htr2]
      rw [hfst]
      dsimp only
      rw [hsnd]
      dsimp only
      rw [hst1, hb, cachedHitRows_congr (fetchCache_corpus st1 HH now2), ← hst1]
    · have htrf : truthyIds (fetchCache st HH now).1 = false := by
        simpa using htr
      by_cases htop : (topRows st1 year qt qv k).isEmpty = true
      · -- both calls fall back to the lexical search
        have hfst : semanticSearch provider year now st q k =
            (searchDocuments st1 q k,
              storeCache st1 HH c ((searchDocuments st1 q k).map (fun r => r.id)) now) := by
          unfold semanticSearch
          dsimp only
          rw [← hc, if_neg hcl, ← hHH, ← hst1, ← hqt, ← hqv, htrf]
          simp only [Bool.false_eq_true, if_false]
          rw [if_pos htop]
        by_cases hfe : searchDocuments st1 q k = []
        · have hf2 := fetchCache_after_storeCache st1 HH c
            ((searchDocuments st1 q k).map (fun r => r.id)) now now2
          have htr2 : truthyIds (fetchCache (storeCache st1 HH c
              ((searchDocuments st1 q k).map (fun r => r.id)) now) HH now2).1 = false := by
            rw [hf2, hfe]
            simp [truthyIds]
          have hcorp : corpusEq (fetchCache (storeCache st1 HH c
              ((searchDocuments st1 q k).map (fun r => r.id)) now) HH now2).2 st1 :=
            corpusEq_trans (fetchCache_corpus _ HH now2)
              (storeCache_corpus st1 HH c _ now)
          rw [hfst]
          dsimp only
          unfold semanticSearch
          dsimp only
          rw [← hc, if_neg hcl, ← hHH, ← hqt, ← hqv, htr2]
          simp only [Bool.false_eq_true, if_false]
          rw [topRows_congr hcorp, if_pos htop]
          dsimp only
          rw [searchDocuments_congr hcorp]
        · have hf2 := fetchCache_after_storeCache st1 HH c
            ((searchDocuments st1 q k).map (fun r => r.id)) now now2
          have hne : ((searchDocuments st1 q k).map (fun r => r.id)) ≠ [] := by
            simpa using hfe
          have htr2 : truthyIds (fetchCache (storeCache st1 HH c
              ((searchDocuments st1 q k).map (fun r => r.id)) now) HH now2).1 = true := by
            rw [hf2]
            simpa [truthyIds] using hne
          have hcorp : corpusEq (fetchCache (storeCache st1 HH c
              ((searchDocuments st1 q k).map (fun r => r.id)) now) HH now2).2 st1 :=
            corpusEq_trans (fetchCache_corpus _ HH now2)
              (storeCache_corpus st1 HH c _ now)
          rw [hfst]
          dsimp only
          unfold semanticSearch
          dsimp only
          rw [← hc, if_neg hcl, ← hHH, if_pos htr2]
          dsimp only
          rw [hf2]
          simp only [Option.getD_some]
          rw [cachedHitRows_congr hcorp]
          rw [List.map_map]
          have hcomp : ((fun r : DocumentRecord => r.id) ∘ toRecord) =
              (fun d : DocRow => d.id) := rfl
          rw [hcomp]
          refine cachedHitRows_ids st1 _ ?_
          intro i hi
          obtain ⟨rec, hrec, hreci⟩ := List.mem_map.mp hi
          obtain ⟨d, hd, hdi⟩ := searchDocuments_mem hrec
          exact ⟨d, hd, by rw [hdi, hreci]⟩
      · -- the first call stores the ranked top; the second hits that entry
        have htopf : (topRows st1 year qt qv k).isEmpty = false := by
          simpa using htop
        have hfst : semanticSearch provider year now st q k =
            ((topRows st1 year qt qv k).map toRecord,
              storeCache st1 HH c ((topRows st1 year qt qv k).map (fun d => d.id)) now) := by
          unfold semanticSearch
          dsimp only
          rw [← hc, if_neg hcl, ← hHH, ← hst1, ← hqt, ← hqv, htrf]
          simp only [Bool.false_eq_true, if_false]
          rw [htopf]
          simp only [Bool.false_eq_true, if_false]
        have hf2 := fetchCache_after_storeCache st1 HH c
          ((topRows st1 year qt qv k).map (fun d => d.id)) now now2
        have hne : ((topRows st1 year qt qv k).map (fun d => d.id)) ≠ [] := by
          have h0 : topRows st1 year qt qv k ≠ [] := by
            intro h0
            rw [h0] at htopf
            simp at htopf
          simpa using h0
        have htr2 : truthyIds (fetchCache (storeCache st1 HH c
            ((topRows st1 year qt qv k).map (fun d => d.id)) now) HH now2).1 = true := by
          rw [hf2]
          simpa [truthyIds] using hne
        have hcorp : corpusEq (fetchCache (storeCache st1 HH c
            ((topRows st1 year qt qv k).map (fun d => d.id)) now) HH now2).2 st1 :=
          corpusEq_trans (fetchCache_corpus _ HH now2)
            (storeCache_corpus st1 HH c _ now)
        rw [hfst]
        dsimp only
        unfold semanticSearch
        dsimp only
        rw [← hc, if_neg hcl, ← hHH, if_pos htr2]
        dsimp only
        rw [hf2]
        simp only [Option.getD_some]
        rw [cachedHitRows_congr hcorp]
        rw [List.map_map, List.map_map]
        have hcomp : ((fun r : DocumentRecord => r.id) ∘ toRecord) =
            (fun d : DocRow => d.id) := rfl
        rw [hcomp]
        refine cachedHitRows_ids st1 _ ?_
        intro i hi
        obtain ⟨d, hd, hdi⟩ := List.mem_map.mp hi
        have hmem : d ∈ st1.documents := topRows_mem hd
        exact ⟨d, hmem, hdi⟩
